import Mathlib

/-!
# ArrayDeque: a circular-buffer deque (`src/array_deque.go`)

Shallow embedding of the Go type `ArrayDeque[T]` and its methods.

Conventions of the embedding

* Go `int` is the 64-bit signed integer, embedded as an `Int`.  The one sum of
  the source with an operand that is not bounded by a slice length,
  `len(d.data) + d.growthChunk` in `computeCapacity`, wraps around as in Go
  (`wrapInt`).  The other integer expressions add or subtract positions and
  lengths of one slice; they are taken exactly, which is their value in Go for
  every slice of fewer than `2^62` elements.  `make` never fails for lack of
  memory.
* A Go slice made by `make([]T, n)` is a `List α` of length `n`; its capacity
  equals its length everywhere in the source, so one number stands for both.
  The zero value of `T` is `default`.
* A run-time panic (index or slice bounds out of range, division by zero,
  negative `make` length, explicit `panic(...)`) is `none`; a normal return is
  `some`.  For `Add` and the methods it calls a second embedding (`AddTraced`)
  also keeps the receiver a panic leaves behind.
* A Go result `(T, error)` is a pair `α × Option DequeError`.
* `growthFactor` is a `float64` in the source.  A finite `float64` is a
  rational number, and the field holds that number; NaN and the infinities have
  no counterpart (in `EnsureCapacity` they act as a factor of magnitude `2^1024`
  or more does: the computed capacity falls below the requested one).  Each
  `float64` operation of `int(float64(len(d.data)) * (1.0 + d.growthFactor))`
  is the exact rational operation followed by IEEE 754 rounding to the nearest
  `float64`, ties to even (`roundFloat64`), and the conversion to `int`
  truncates toward zero (`floatToInt`).
-/

namespace ArrayDequeGo

/-! ## Go slice primitives -/

/-- Index expression `s[i]`: panics when `i` is out of range. -/
def index {α : Type} (s : List α) (i : Int) : Option α :=
  if 0 ≤ i ∧ i < s.length then s[i.toNat]? else none

/-- Indexed assignment `s[i] = v`: panics when `i` is out of range. -/
def assign {α : Type} (s : List α) (i : Int) (v : α) : Option (List α) :=
  if 0 ≤ i ∧ i < s.length then some (s.set i.toNat v) else none

/-- Slice expression `s[lo:hi]` (a snapshot of the selected elements):
panics unless `0 ≤ lo ≤ hi ≤ len(s)`. -/
def slice {α : Type} (s : List α) (lo hi : Int) : Option (List α) :=
  if 0 ≤ lo ∧ lo ≤ hi ∧ hi ≤ s.length then
    some ((s.drop lo.toNat).take (hi.toNat - lo.toNat))
  else none

/-- The statement `copy(dst[lo:], src)`, giving the new value of `dst`: the first
`min(len(dst) - lo, len(src))` elements of `src` overwrite `dst` from `lo` on;
panics unless `0 ≤ lo ≤ len(dst)`. -/
def copyAt {α : Type} (dst : List α) (lo : Int) (src : List α) : Option (List α) :=
  if 0 ≤ lo ∧ lo ≤ dst.length then
    let n := min (dst.length - lo.toNat) src.length
    some (dst.take lo.toNat ++ src.take n ++ dst.drop (lo.toNat + n))
  else none

/-- The statement `copy(dst[dlo:], src[slo:shi])`; the source slice is read before
anything is written, which is the overlap-safe behaviour of Go's `copy`. -/
def copySlice {α : Type} (dst : List α) (dlo : Int) (src : List α) (slo shi : Int) :
    Option (List α) := do
  let s ← slice src slo shi
  copyAt dst dlo s

/-- The expression `make([]T, n)`: panics when `n` is negative. -/
def make {α : Type} [Inhabited α] (n : Int) : Option (List α) :=
  if 0 ≤ n then some (List.replicate n.toNat default) else none

/-- Go's integer remainder `a % b`: panics on a zero divisor, truncates toward zero. -/
def goMod (a b : Int) : Option Int :=
  if b = 0 then none else some (Int.tmod a b)

/-! ## Go arithmetic -/

/-- The value of a 64-bit `int` expression whose mathematical value is `x`: signed
arithmetic wraps around modulo `2^64` into `[-2^63, 2^63)`. -/
def wrapInt (x : Int) : Int := (x + 2 ^ 63) % 2 ^ 64 - 2 ^ 63

/-- Rounding of a rational to the nearest integer, a tie going to the even one. -/
def roundHalfEven (q : ℚ) : Int :=
  let f := Rat.floor q
  let r := q - f
  if r < 1 / 2 then f
  else if 1 / 2 < r then f + 1
  else if f % 2 = 0 then f else f + 1

/-- The binary exponent of a non-zero rational: the `e` with `2^e ≤ |q| < 2^(e+1)`. -/
def binaryExponent (q : ℚ) : Int := Int.log 2 |q|

/-- The `float64` nearest to the real number `q` (IEEE 754 binary64, round to nearest, ties
to even): a 53-bit significand at the binary exponent of `q`, the exponent not going below
`-1022` (subnormal numbers).  A result of magnitude `2^1024` or more stands for an infinity. -/
def roundFloat64 (q : ℚ) : ℚ :=
  if q = 0 then 0
  else
    let e := max (binaryExponent q) (-1022)
    let quantum := (2 : ℚ) ^ (e - 52)
    (roundHalfEven (q / quantum) : ℚ) * quantum

/-- The conversion `int(x)` of a `float64`: the fraction is discarded (truncation toward
zero); a value outside the range of `int`, an infinity included, converts to `-2^63` (the
result of the conversion instruction of amd64; the language leaves it to the
implementation). -/
def floatToInt (x : ℚ) : Int :=
  let t := if 0 ≤ x then Rat.floor x else -Rat.floor (-x)
  if -2 ^ 63 ≤ t ∧ t < 2 ^ 63 then t else -2 ^ 63

/-! ## The data model -/

def GrowthPolicyRelative : Int := 0
def GrowthPolicyAbsolute : Int := 1
def DefaultGrowthPolicy : Int := GrowthPolicyRelative
def DefaultGrowthFactor : ℚ := 1
def DefaultGrowthChunk : Int := 10
def DefaultCapacity : Int := 10

/-- The two error values the methods return. -/
inductive DequeError where
  | indexOutOfBounds (index : Int)
  | dequeIsEmpty
  deriving DecidableEq, Repr

structure ArrayDeque (α : Type) where
  data : List α
  size : Int
  first : Int
  last : Int
  growthPolicy : Int
  growthFactor : ℚ
  growthChunk : Int
  compare : α → α → Bool

variable {α : Type} [Inhabited α]

/-- The expression `len(d.data)`. -/
def ArrayDeque.len (d : ArrayDeque α) : Int := d.data.length

def NewArrayDequeWithParams (capacity growthPolicy : Int) (growthFactor : ℚ)
    (growthChunk : Int) (compare : α → α → Bool) : Option (ArrayDeque α) :=
  if capacity < 0 then none
  else if growthFactor < 0 then none
  else if growthChunk < 0 then none
  else do
    let data ← make capacity
    pure { data := data, size := 0, first := 0, last := 0,
           growthPolicy := growthPolicy, growthFactor := growthFactor,
           growthChunk := growthChunk, compare := compare }

def NewArrayDequeWithCapacityAndGrowth (capacity : Int) (growthFactor : ℚ)
    (compare : α → α → Bool) : Option (ArrayDeque α) :=
  NewArrayDequeWithParams capacity GrowthPolicyRelative growthFactor DefaultGrowthChunk compare

def NewArrayDequeWithCapacityAndChunk (capacity growthChunk : Int)
    (compare : α → α → Bool) : Option (ArrayDeque α) :=
  NewArrayDequeWithParams capacity GrowthPolicyAbsolute DefaultGrowthFactor growthChunk compare

def NewArrayDequeWithCapacity (capacity : Int) (compare : α → α → Bool) :
    Option (ArrayDeque α) :=
  NewArrayDequeWithCapacityAndGrowth capacity DefaultGrowthFactor compare

def NewArrayDeque (compare : α → α → Bool) : Option (ArrayDeque α) :=
  NewArrayDequeWithCapacity DefaultCapacity compare

def computeCapacity (d : ArrayDeque α) (capacity : Int) : Int :=
  let newCapacity :=
    if d.growthPolicy = GrowthPolicyRelative then
      floatToInt (roundFloat64 (roundFloat64 (d.len : ℚ) * roundFloat64 (1 + d.growthFactor)))
    else
      wrapInt (d.len + d.growthChunk)
  if newCapacity < capacity then capacity else newCapacity

/-- The method `toArray(a)`, giving the new contents of `a`. -/
def toArray (d : ArrayDeque α) (a : List α) : Option (List α) :=
  if d.last ≤ d.first then
    if d.last = 0 then
      copySlice a 0 d.data d.first (d.first + d.size)
    else do
      let block1 := d.len - d.first
      let block2 := d.size - block1
      let a ← copySlice a 0 d.data d.first d.len
      copySlice a block1 d.data 0 block2
  else
    copySlice a 0 d.data d.first (d.first + d.size)

def ToArray (d : ArrayDeque α) : Option (List α) := do
  let a ← make d.size
  toArray d a

def EnsureCapacity (d : ArrayDeque α) (capacity : Int) : Option (ArrayDeque α × Int) :=
  if capacity > d.len then do
    let newCapacity := computeCapacity d capacity
    let newData ← make newCapacity
    let newData ← toArray d newData
    pure ({ d with first := 0, last := d.size, data := newData }, newCapacity)
  else
    pure (d, d.len)

def Capacity (d : ArrayDeque α) : Int := d.len

def Size (d : ArrayDeque α) : Int := d.size

def IsEmpty (d : ArrayDeque α) : Bool := d.size == 0

def AddFirst (d : ArrayDeque α) (v : α) : Option (ArrayDeque α) := do
  let (d, _) ← EnsureCapacity d (d.size + 1)
  let first := d.first - 1
  let first := if first < 0 then d.len - 1 else first
  let data ← assign d.data first v
  pure { d with first := first, data := data, size := d.size + 1 }

def AddLast (d : ArrayDeque α) (v : α) : Option (ArrayDeque α) := do
  let (d, _) ← EnsureCapacity d (d.size + 1)
  let data ← assign d.data d.last v
  let last := d.last + 1
  let last := if last = d.len then 0 else last
  pure { d with data := data, last := last, size := d.size + 1 }

def RemoveFirst (d : ArrayDeque α) : Option (ArrayDeque α × (α × Option DequeError)) :=
  if d.size = 0 then
    pure (d, (default, some DequeError.dequeIsEmpty))
  else do
    let result ← index d.data d.first
    let first := d.first + 1
    let first := if first = d.len then 0 else first
    pure ({ d with first := first, size := d.size - 1 }, (result, none))

def RemoveLast (d : ArrayDeque α) : Option (ArrayDeque α × (α × Option DequeError)) :=
  if d.size = 0 then
    pure (d, (default, some DequeError.dequeIsEmpty))
  else do
    let last := d.last - 1
    let last := if last < 0 then d.len - 1 else last
    let result ← index d.data last
    pure ({ d with last := last, size := d.size - 1 }, (result, none))

def Add (d : ArrayDeque α) (index : Int) (v : α) : Option (ArrayDeque α) :=
  if index = 0 then
    AddFirst d v
  else if index = d.size then
    AddLast d v
  else if index < 0 ∨ index > d.size then
    none
  else do
    let (d, _) ← EnsureCapacity d (d.size + 1)
    if d.first < d.last ∨ d.last = 0 then
      let iidx := index + d.first
      let «end» := if d.last = 0 then d.len else d.last
      let block := «end» - iidx
      if d.last = 0 then do
        let x ← ArrayDequeGo.index d.data (d.len - 1)
        let data ← assign d.data 0 x
        let data ← copySlice data (iidx + 1) data iidx (iidx + block - 1)
        let data ← assign data iidx v
        pure { d with data := data, last := 1, size := d.size + 1 }
      else do
        let data ← copySlice d.data (iidx + 1) d.data iidx (iidx + block)
        let last := d.last + 1
        let last := if last = d.len then 0 else last
        let data ← assign data iidx v
        pure { d with data := data, last := last, size := d.size + 1 }
    else do
      let iidx ← goMod (d.first + index) d.len
      if iidx ≤ d.last then do
        let block := d.last - iidx
        let data ← copySlice d.data (iidx + 1) d.data iidx (iidx + block)
        let data ← assign data iidx v
        pure { d with data := data, last := d.last + 1, size := d.size + 1 }
      else do
        let block := iidx - d.first
        let data ← copySlice d.data (d.first - 1) d.data d.first (d.first + block)
        let data ← assign data (iidx - 1) v
        pure { d with data := data, first := d.first - 1, size := d.size + 1 }

def Get (d : ArrayDeque α) (index : Int) : Option (α × Option DequeError) :=
  if index < 0 ∨ index ≥ d.size then
    pure (default, some (DequeError.indexOutOfBounds index))
  else do
    let idx ← goMod (d.first + index) d.len
    let x ← ArrayDequeGo.index d.data idx
    pure (x, none)

def Set (d : ArrayDeque α) (index : Int) (v : α) :
    Option (ArrayDeque α × (α × Option DequeError)) :=
  if index < 0 ∨ index ≥ d.size then
    pure (d, (default, some (DequeError.indexOutOfBounds index)))
  else do
    let idx ← goMod (d.first + index) d.len
    let result ← ArrayDequeGo.index d.data idx
    let data ← assign d.data idx v
    pure ({ d with data := data }, (result, none))

def RemoveElementAt (d : ArrayDeque α) (index : Int) :
    Option (ArrayDeque α × (α × Option DequeError)) :=
  if index = 0 then
    RemoveFirst d
  else if index = d.size - 1 then
    RemoveLast d
  else if index < 0 ∨ index ≥ d.size then
    pure (d, (default, some (DequeError.indexOutOfBounds index)))
  else do
    let ridx ← goMod (d.first + index) d.len
    let result ← ArrayDequeGo.index d.data ridx
    if d.first < d.last ∨ d.last = 0 then
      let block1 := ridx - d.first
      let block2 := d.size - block1 - 1
      if block1 < block2 then do
        let data ← copySlice d.data (d.first + 1) d.data d.first (d.first + block1)
        pure ({ d with data := data, first := d.first + 1, size := d.size - 1 }, (result, none))
      else do
        let data ← copySlice d.data ridx d.data (ridx + 1) (ridx + 1 + block2)
        let last := d.last - 1
        let last := if last < 0 then d.len - 1 else last
        pure ({ d with data := data, last := last, size := d.size - 1 }, (result, none))
    else
      if ridx < d.last then do
        let block := d.last - ridx - 1
        let data ← copySlice d.data ridx d.data (ridx + 1) (ridx + 1 + block)
        pure ({ d with data := data, last := d.last - 1, size := d.size - 1 }, (result, none))
      else do
        let block := ridx - d.first
        let data ← copySlice d.data (d.first + 1) d.data d.first (d.first + block)
        let first := d.first + 1
        let first := if first = d.len then 0 else first
        pure ({ d with data := data, first := first, size := d.size - 1 }, (result, none))

def TrimToSize (d : ArrayDeque α) : Option (ArrayDeque α) :=
  if d.len > d.size then do
    let newData ← ToArray d
    pure { d with first := 0, last := 0, data := newData }
  else
    pure d

def GetFirst (d : ArrayDeque α) : Option (α × Option DequeError) :=
  if d.size = 0 then
    pure (default, some DequeError.dequeIsEmpty)
  else do
    let x ← index d.data d.first
    pure (x, none)

def GetLast (d : ArrayDeque α) : Option (α × Option DequeError) :=
  if d.size = 0 then
    pure (default, some DequeError.dequeIsEmpty)
  else if d.last = 0 then do
    let x ← index d.data (d.len - 1)
    pure (x, none)
  else do
    let x ← index d.data (d.last - 1)
    pure (x, none)

def Clear (d : ArrayDeque α) : ArrayDeque α :=
  { d with size := 0, first := 0, last := 0 }

/-- The loop of `Contains`, entered with loop variables `i` and `idx`; the first argument
bounds the number of iterations still to run (`none` also when it is used up). -/
def Contains.loop (d : ArrayDeque α) (v : α) : Nat → Int → Int → Option Bool
  | fuel, i, idx =>
    if i < d.size then
      match fuel with
      | 0 => none
      | fuel + 1 => do
        let x ← index d.data idx
        if d.compare x v then pure true
        else
          let idx := idx + 1
          let idx := if idx = d.len then 0 else idx
          Contains.loop d v fuel (i + 1) idx
    else pure false

def Contains (d : ArrayDeque α) (v : α) : Option Bool :=
  Contains.loop d v d.size.toNat 0 d.first

/-- The loop of `IndexOf`; arguments as for `Contains.loop`. -/
def IndexOf.loop (d : ArrayDeque α) (v : α) : Nat → Int → Int → Option Int
  | fuel, i, idx =>
    if i < d.size then
      match fuel with
      | 0 => none
      | fuel + 1 => do
        let x ← index d.data idx
        if d.compare x v then pure i
        else
          let idx := idx + 1
          let idx := if idx = d.len then 0 else idx
          IndexOf.loop d v fuel (i + 1) idx
    else pure (-1)

def IndexOf (d : ArrayDeque α) (v : α) : Option Int :=
  IndexOf.loop d v d.size.toNat 0 d.first

/-- The loop of `LastIndexOf`; arguments as for `Contains.loop`. -/
def LastIndexOf.loop (d : ArrayDeque α) (v : α) : Nat → Int → Int → Option Int
  | fuel, i, idx =>
    if i ≥ 0 then
      match fuel with
      | 0 => none
      | fuel + 1 => do
        let idx := if idx < 0 then d.len - 1 else idx
        let x ← index d.data idx
        if d.compare x v then pure i
        else LastIndexOf.loop d v fuel (i - 1) (idx - 1)
    else pure (-1)

def LastIndexOf (d : ArrayDeque α) (v : α) : Option Int :=
  LastIndexOf.loop d v d.size.toNat (d.size - 1) (d.last - 1)

def Remove (d : ArrayDeque α) (v : α) : Option (ArrayDeque α × Bool) := do
  let index ← IndexOf d v
  if index ≠ -1 then do
    let (d, (_, err)) ← RemoveElementAt d index
    pure (d, err.isNone)
  else
    pure (d, false)

/-! ## Panics and the receiver

A method works on its receiver through a pointer: after a panic the caller still holds the
receiver, with every assignment the call made before it panicked.  `EnsureCapacity`,
`AddFirst`, `AddLast` and `Add` are embedded here a second time, statement by statement,
with that receiver kept. -/

/-- Total read of slot `j` of a slice (the zero value outside it). -/
def peek (s : List α) (j : Int) : α := if 0 ≤ j then s.getD j.toNat default else default

/-- The element at logical index `k`: the slot `(first + k) mod capacity`. -/
def elemAt (d : ArrayDeque α) (k : Int) : α := peek d.data ((d.first + k) % d.len)

/-- The logical contents: the elements at logical indices `0 .. size-1`. -/
def logical (d : ArrayDeque α) : List α :=
  (List.range d.size.toNat).map fun (k : Nat) => elemAt d (k : Int)

/-- A well-formed deque: `0 ≤ size ≤ capacity`, `first` and `last` inside the buffer and
`last = (first + size) mod capacity`.  A buffer of capacity 0 has no slot for `first`
and `last` to point at; there they are both 0, as the constructors and `TrimToSize`
leave them. -/
def WellFormed (d : ArrayDeque α) : Prop :=
  0 ≤ d.size ∧ d.size ≤ d.len ∧
    ((0 ≤ d.first ∧ d.first < d.len ∧ 0 ≤ d.last ∧ d.last < d.len ∧
        d.last = (d.first + d.size) % d.len) ∨
      (d.len = 0 ∧ d.first = 0 ∧ d.last = 0))

/-- The states a program can bring a deque into: the results of the constructors, closed
under every exported method that assigns to the receiver and returns without a panic. -/
inductive Reachable : ArrayDeque α → Prop where
  | construct (capacity growthPolicy : Int) (growthFactor : ℚ) (growthChunk : Int)
      (compare : α → α → Bool) (d : ArrayDeque α) :
      NewArrayDequeWithParams capacity growthPolicy growthFactor growthChunk compare = some d →
      Reachable d
  | ensureCapacity (d d' : ArrayDeque α) (capacity n : Int) :
      Reachable d → EnsureCapacity d capacity = some (d', n) → Reachable d'
  | add (d d' : ArrayDeque α) (index : Int) (v : α) :
      Reachable d → Add d index v = some d' → Reachable d'
  | set (d d' : ArrayDeque α) (index : Int) (v : α) (r : α × Option DequeError) :
      Reachable d → Set d index v = some (d', r) → Reachable d'
  | removeElementAt (d d' : ArrayDeque α) (index : Int) (r : α × Option DequeError) :
      Reachable d → RemoveElementAt d index = some (d', r) → Reachable d'
  | trimToSize (d d' : ArrayDeque α) :
      Reachable d → TrimToSize d = some d' → Reachable d'
  | addFirst (d d' : ArrayDeque α) (v : α) :
      Reachable d → AddFirst d v = some d' → Reachable d'
  | addLast (d d' : ArrayDeque α) (v : α) :
      Reachable d → AddLast d v = some d' → Reachable d'
  | removeFirst (d d' : ArrayDeque α) (r : α × Option DequeError) :
      Reachable d → RemoveFirst d = some (d', r) → Reachable d'
  | removeLast (d d' : ArrayDeque α) (r : α × Option DequeError) :
      Reachable d → RemoveLast d = some (d', r) → Reachable d'
  | clear (d : ArrayDeque α) : Reachable d → Reachable (Clear d)
  | remove (d d' : ArrayDeque α) (v : α) (b : Bool) :
      Reachable d → Remove d v = some (d', b) → Reachable d'

/-- The calls `AddLast(x1); ...; AddLast(xn)`, one after the other. -/
def addLastAll (d : ArrayDeque α) (xs : List α) : Option (ArrayDeque α) :=
  xs.foldlM AddLast d

/-- The calls `AddFirst(x1); ...; AddFirst(xn)`, one after the other. -/
def addFirstAll (d : ArrayDeque α) (xs : List α) : Option (ArrayDeque α) :=
  xs.foldlM AddFirst d

/-- The comparison function of the tests, `intCompare`. -/
def intCompare (a b : Int) : Bool := a == b

/-- The state `TestWraparound` reaches before it calls `ToArray`: capacity 4 and the calls
`AddLast(1..4); RemoveFirst(); RemoveFirst(); AddLast(5); AddLast(6)` leave the buffer
`[5, 6, 3, 4]` with `first = last = 2` and `size = 4`. -/
def wraparoundState : ArrayDeque Int :=
  { data := [5, 6, 3, 4], size := 4, first := 2, last := 2,
    growthPolicy := GrowthPolicyRelative, growthFactor := DefaultGrowthFactor,
    growthChunk := DefaultGrowthChunk, compare := intCompare }

/-- The calls of `TestWraparound` up to its `ToArray`. -/
def wraparoundRun : Option (ArrayDeque Int) := do
  let d ← NewArrayDequeWithCapacity 4 intCompare
  let d ← AddLast d 1
  let d ← AddLast d 2
  let d ← AddLast d 3
  let d ← AddLast d 4
  let (d, _) ← RemoveFirst d
  let (d, _) ← RemoveFirst d
  let d ← AddLast d 5
  AddLast d 6

/-- The deque `NewArrayDequeWithCapacityAndChunk(0, 0, intCompare)` returns: no slot at all
and the absolute growth policy with chunk 0. -/
def zeroCapacityState : ArrayDeque Int :=
  { data := [], size := 0, first := 0, last := 0,
    growthPolicy := GrowthPolicyAbsolute, growthFactor := DefaultGrowthFactor,
    growthChunk := 0, compare := intCompare }

/-- The deque `NewArrayDeque(intCompare)` returns. -/
def defaultState : ArrayDeque Int :=
  { data := [0, 0, 0, 0, 0, 0, 0, 0, 0, 0], size := 0, first := 0, last := 0,
    growthPolicy := GrowthPolicyRelative, growthFactor := DefaultGrowthFactor,
    growthChunk := DefaultGrowthChunk, compare := intCompare }

/-- The state after `d := NewArrayDeque(intCompare); d.AddLast(1)`. -/
def singletonState : ArrayDeque Int :=
  { data := [1, 0, 0, 0, 0, 0, 0, 0, 0, 0], size := 1, first := 0, last := 1,
    growthPolicy := GrowthPolicyRelative, growthFactor := DefaultGrowthFactor,
    growthChunk := DefaultGrowthChunk, compare := intCompare }

/-- The state after `d := NewArrayDeque(intCompare); d.AddLast(1); d.RemoveFirst()`:
empty again, with `first = last = 1`. -/
def emptiedState : ArrayDeque Int :=
  { data := [1, 0, 0, 0, 0, 0, 0, 0, 0, 0], size := 0, first := 1, last := 1,
    growthPolicy := GrowthPolicyRelative, growthFactor := DefaultGrowthFactor,
    growthChunk := DefaultGrowthChunk, compare := intCompare }

/-- One call in a mixed sequence of `AddLast(v)` and `RemoveFirst()` calls. -/
inductive EndOp (α : Type) where
  | addLast (v : α)
  | removeFirst

/-- The effect of one such call on the deque (the value `RemoveFirst` returns is dropped). -/
def EndOp.apply (d : ArrayDeque α) : EndOp α → Option (ArrayDeque α)
  | EndOp.addLast v => AddLast d v
  | EndOp.removeFirst => (RemoveFirst d).map Prod.fst

/-- The representation invariant in the words of the specification: `0 ≤ size ≤ capacity`,
and when `capacity > 0` also `0 ≤ first < capacity`, `0 ≤ last < capacity` and
`last = (first + size) mod capacity`. -/
def Invariant (d : ArrayDeque α) : Prop :=
  0 ≤ d.size ∧ d.size ≤ d.len ∧
    (0 < d.len → 0 ≤ d.first ∧ d.first < d.len ∧ 0 ≤ d.last ∧ d.last < d.len ∧
      d.last = (d.first + d.size) % d.len)

/-- The state after `d := NewArrayDequeWithCapacityAndChunk(10, math.MaxInt64, intCompare);
d.AddLast(1)`: absolute growth by the largest chunk the constructor accepts. -/
def maxChunkState : ArrayDeque Int :=
  { data := [1, 0, 0, 0, 0, 0, 0, 0, 0, 0], size := 1, first := 0, last := 1,
    growthPolicy := GrowthPolicyAbsolute, growthFactor := DefaultGrowthFactor,
    growthChunk := 2 ^ 63 - 1, compare := intCompare }

/-- The state `maxChunkState` after `EnsureCapacity(11)`. -/
def maxChunkGrownState : ArrayDeque Int :=
  { data := [1, 0, 0, 0, 0, 0, 0, 0, 0, 0, 0], size := 1, first := 0, last := 1,
    growthPolicy := GrowthPolicyAbsolute, growthFactor := DefaultGrowthFactor,
    growthChunk := 2 ^ 63 - 1, compare := intCompare }

/-- The least capacity that is not a `float64`. -/
def hugeCapacity : Nat := 2 ^ 53 + 1

/-- The state after `d := NewArrayDequeWithCapacity[struct{}](1<<53 + 1, compare);
d.AddLast(struct{}{})`: default relative growth, and a capacity that is not a `float64`
(a slice of `struct{}` takes no memory, whatever its length). -/
def hugeCapacityState : ArrayDeque Unit :=
  { data := List.replicate hugeCapacity (), size := 1, first := 0, last := 1,
    growthPolicy := GrowthPolicyRelative, growthFactor := DefaultGrowthFactor,
    growthChunk := DefaultGrowthChunk, compare := fun _ _ => true }

set_option linter.unusedTactic false
set_option linter.unreachableTactic false
set_option linter.unusedSectionVars false
set_option linter.unnecessarySeqFocus false

/-! ## Slice primitives: what they return inside their bounds -/

theorem getElem_opt_overwrite {β : Type} (dst src : List β) (lo n j : Nat)
    (hn : n ≤ src.length) (hlo : lo + n ≤ dst.length) :
    (dst.take lo ++ src.take n ++ dst.drop (lo + n))[j]? =
      if lo ≤ j ∧ j < lo + n then src[j - lo]? else dst[j]? := by
  by_cases h1 : j < lo
  · have : ¬ (lo ≤ j ∧ j < lo + n) := by omega
    rw [if_neg this, List.append_assoc, List.getElem?_append_left (by simp; omega)]
    simp [List.getElem?_take, h1]
  · by_cases h2 : j < lo + n
    · rw [if_pos ⟨by omega, h2⟩, List.append_assoc,
        List.getElem?_append_right (by simp; omega)]
      have hl : (List.take lo dst).length = lo := by simp; omega
      rw [hl, List.getElem?_append_left (by simp; omega)]
      simp [List.getElem?_take]; omega
    · have : ¬ (lo ≤ j ∧ j < lo + n) := by omega
      rw [if_neg this, List.getElem?_append_right (by simp; omega)]
      have hl : (List.take lo dst ++ List.take n src).length = lo + n := by
        simp; omega
      rw [hl, List.getElem?_drop]
      congr 1; omega

theorem peek_def (s : List α) (j : Int) (h : 0 ≤ j) :
    peek s j = (s[j.toNat]?).getD default := by
  simp [peek, h, List.getD_eq_getElem?_getD]

theorem peek_neg (s : List α) (j : Int) (h : j < 0) : peek s j = default := by
  have : ¬ 0 ≤ j := by omega
  simp [peek, this]

theorem index_some (s : List α) (i : Int) (h0 : 0 ≤ i) (h1 : i < s.length) :
    index s i = some (peek s i) := by
  have h : i.toNat < s.length := by omega
  simp [index, h0, h1, peek_def _ _ h0, List.getElem?_eq_getElem h]

theorem assign_some {β : Type} (s : List β) (i : Int) (v : β) (h0 : 0 ≤ i)
    (h1 : i < s.length) : assign s i v = some (s.set i.toNat v) := by
  simp [assign, h0, h1]

theorem peek_set (s : List α) (i j : Int) (v : α) (hi0 : 0 ≤ i) (hi1 : i < s.length) :
    peek (s.set i.toNat v) j = if j = i then v else peek s j := by
  by_cases hj : 0 ≤ j
  · rw [peek_def _ _ hj, peek_def _ _ hj, List.getElem?_set]
    by_cases h : j = i
    · subst h
      have : j.toNat < s.length := by omega
      simp [this]
    · have : i.toNat ≠ j.toNat := by omega
      simp [h, this]
  · rw [peek_neg _ _ (by omega), peek_neg _ _ (by omega), if_neg (by omega)]

theorem copySlice_spec (dst src : List α) (dlo slo shi : Int) (h1 : 0 ≤ dlo)
    (h2 : dlo ≤ dst.length) (h3 : 0 ≤ slo) (h4 : slo ≤ shi) (h5 : shi ≤ src.length) :
    ∃ r, copySlice dst dlo src slo shi = some r ∧ r.length = dst.length ∧
      ∀ j : Int, peek r j =
        if dlo ≤ j ∧ j < dlo + (shi - slo) ∧ j < dst.length then peek src (j - dlo + slo)
        else peek dst j := by
  refine ⟨dst.take dlo.toNat ++
      ((src.drop slo.toNat).take (shi.toNat - slo.toNat)).take
        (min (dst.length - dlo.toNat) ((src.drop slo.toNat).take (shi.toNat - slo.toNat)).length) ++
      dst.drop (dlo.toNat + min (dst.length - dlo.toNat)
        ((src.drop slo.toNat).take (shi.toNat - slo.toNat)).length), ?_, ?_, ?_⟩
  · simp only [copySlice, slice, copyAt, h1, h2, h3, h4, h5, and_self, if_true]
    rfl
  · simp; omega
  · intro j
    by_cases hj : 0 ≤ j
    · rw [peek_def _ _ hj, getElem_opt_overwrite _ _ _ _ _ (Nat.min_le_right _ _)
        (by simp; omega)]
      simp only [List.length_take, List.length_drop]
      by_cases hc : dlo ≤ j ∧ j < dlo + (shi - slo) ∧ j < dst.length
      · rw [if_pos hc, if_pos (by omega), peek_def _ _ (by omega)]
        rw [List.getElem?_take, if_pos (by omega), List.getElem?_drop]
        congr 2; omega
      · rw [if_neg hc, if_neg (by omega), peek_def _ _ hj]
    · rw [peek_neg _ _ (by omega), if_neg (by omega), peek_neg _ _ (by omega)]

theorem goMod_some (a b : Int) (ha : 0 ≤ a) (hb : 0 < b) : goMod a b = some (a % b) := by
  have : b ≠ 0 := by omega
  simp [goMod, this, Int.tmod_eq_emod ha (le_of_lt hb)]

theorem emod_wrap (x n : Int) (h0 : 0 ≤ x) (h1 : x < 2 * n) :
    x % n = if x < n then x else x - n := by
  split_ifs with h
  · exact Int.emod_eq_of_lt h0 h
  · have : x % n = (x - n) % n := by simp [Int.sub_emod]
    rw [this]
    exact Int.emod_eq_of_lt (by omega) (by omega)

theorem make_some (n : Int) (h : 0 ≤ n) :
    (make n : Option (List α)) = some (List.replicate n.toNat default) := by
  simp [make, h]

theorem peek_replicate (n : Nat) (j : Int) :
    peek (List.replicate n (default : α)) j = default := by
  by_cases hj : 0 ≤ j
  · rw [peek_def _ _ hj]
    by_cases h : j.toNat < n
    · simp [List.getElem?_replicate, h]
    · simp [List.getElem?_replicate, h]
  · exact peek_neg _ _ (by omega)

/-- Linear form of well-formedness. -/
theorem wellFormed_iff (d : ArrayDeque α) :
    WellFormed d ↔
      0 ≤ d.size ∧ d.size ≤ d.len ∧ 0 ≤ d.first ∧ 0 ≤ d.last ∧
        ((d.first < d.len ∧ d.last < d.len ∧
            ((d.first + d.size < d.len ∧ d.last = d.first + d.size) ∨
             (d.len ≤ d.first + d.size ∧ d.last = d.first + d.size - d.len))) ∨
          (d.len = 0 ∧ d.first = 0 ∧ d.last = 0)) := by
  unfold WellFormed
  constructor
  · rintro ⟨h1, h2, h | h⟩
    · obtain ⟨h3, h4, h5, h6, h7⟩ := h
      rw [emod_wrap _ _ (by omega) (by omega)] at h7
      refine ⟨h1, h2, h3, h5, Or.inl ⟨h4, h6, ?_⟩⟩
      split_ifs at h7 <;> omega
    · omega
  · rintro ⟨h1, h2, h3, h4, h | h⟩
    · obtain ⟨h5, h6, h7⟩ := h
      refine ⟨h1, h2, Or.inl ⟨h3, h5, h4, h6, ?_⟩⟩
      rw [emod_wrap _ _ (by omega) (by omega)]
      split_ifs <;> omega
    · exact ⟨h1, h2, Or.inr h⟩

theorem elemAt_eq (d : ArrayDeque α) (k : Int) (h0 : 0 ≤ d.first) (h1 : d.first < d.len)
    (hk0 : 0 ≤ k) (hk1 : k < d.len) :
    elemAt d k = peek d.data (if d.first + k < d.len then d.first + k else d.first + k - d.len) := by
  unfold elemAt
  rw [emod_wrap _ _ (by omega) (by omega)]

theorem logical_length (d : ArrayDeque α) : (logical d).length = d.size.toNat := by
  simp [logical]

theorem logical_getElem_opt (d : ArrayDeque α) (k : Nat) :
    (logical d)[k]? = if (k : Int) < d.size then some (elemAt d k) else none := by
  unfold logical
  rw [List.getElem?_map]
  by_cases h : (k : Int) < d.size
  · have h2 : k < d.size.toNat := by omega
    simp [h, List.getElem?_range h2]
  · have h2 : ¬ k < d.size.toNat := by omega
    simp [h, h2]
    omega

theorem toArray_spec (d : ArrayDeque α) (a : List α) (hwf : WellFormed d)
    (hne : 0 < d.size ∨ d.first = 0) (ha : d.size ≤ a.length) :
    ∃ r, toArray d a = some r ∧ r.length = a.length ∧
      ∀ j : Int, 0 ≤ j → peek r j = if j < d.size then elemAt d j else peek a j := by
  rw [wellFormed_iff] at hwf
  have hlen : d.len = d.data.length := rfl
  unfold toArray
  by_cases h1 : d.last ≤ d.first
  · by_cases h2 : d.last = 0
    · rw [if_pos h1, if_pos h2]
      obtain ⟨r, hr, hl, hp⟩ := copySlice_spec a d.data 0 d.first (d.first + d.size)
        (by omega) (by omega) (by omega) (by omega) (by omega)
      refine ⟨r, hr, hl, ?_⟩
      intro j hj
      rw [hp j]
      by_cases hc : j < d.size
      · rw [if_pos hc, if_pos (by omega), elemAt_eq d j (by omega) (by omega) hj (by omega),
          if_pos (by omega)]
        congr 1; omega
      · rw [if_neg hc, if_neg (by omega)]
    · rw [if_pos h1, if_neg h2]
      obtain ⟨r, hr, hl, hp⟩ := copySlice_spec a d.data 0 d.first d.len
        (by omega) (by omega) (by omega) (by omega) (by omega)
      obtain ⟨r2, hr2, hl2, hp2⟩ := copySlice_spec r d.data (d.len - d.first) 0
        (d.size - (d.len - d.first)) (by omega) (by omega) (by omega) (by omega) (by omega)
      refine ⟨r2, ?_, by omega, ?_⟩
      · simp only [hr, Option.bind_eq_bind, Option.some_bind, hr2]
      · intro j hj
        rw [hp2 j, hp j]
        by_cases hc : j < d.size
        · rw [if_pos hc, elemAt_eq d j (by omega) (by omega) hj (by omega)]
          split_ifs <;> first | omega | (congr 1; omega)
        · rw [if_neg hc, if_neg (by omega), if_neg (by omega)]
  · rw [if_neg h1]
    obtain ⟨r, hr, hl, hp⟩ := copySlice_spec a d.data 0 d.first (d.first + d.size)
      (by omega) (by omega) (by omega) (by omega) (by omega)
    refine ⟨r, hr, hl, ?_⟩
    intro j hj
    rw [hp j]
    by_cases hc : j < d.size
    · rw [if_pos hc, if_pos (by omega), elemAt_eq d j (by omega) (by omega) hj (by omega),
        if_pos (by omega)]
      congr 1; omega
    · rw [if_neg hc, if_neg (by omega)]

/-! ## Capacity management -/

theorem computeCapacity_ge (d : ArrayDeque α) (c : Int) : c ≤ computeCapacity d c := by
  unfold computeCapacity
  dsimp only
  split_ifs <;> omega

theorem EnsureCapacity_noop (d : ArrayDeque α) (c : Int) (h : c ≤ d.len) :
    EnsureCapacity d c = some (d, d.len) := by
  have : ¬ c > d.len := by omega
  simp [EnsureCapacity, this]

theorem EnsureCapacity_grow (d : ArrayDeque α) (c : Int) (hwf : WellFormed d)
    (hne : 0 < d.size ∨ d.first = 0) (h : d.len < c) :
    ∃ data, EnsureCapacity d c =
        some ({ d with first := 0, last := d.size, data := data }, computeCapacity d c) ∧
      (data.length : Int) = computeCapacity d c ∧
      ∀ j : Int, 0 ≤ j → peek data j = if j < d.size then elemAt d j else default := by
  have hc := computeCapacity_ge d c
  have hwf2 := (wellFormed_iff d).1 hwf
  have hm : (make (computeCapacity d c) : Option (List α)) = _ := make_some _ (by omega)
  obtain ⟨r, hr, hl, hp⟩ := toArray_spec d (List.replicate (computeCapacity d c).toNat default)
    hwf hne (by simp; omega)
  refine ⟨r, ?_, ?_, ?_⟩
  · have : c > d.len := by omega
    simp [EnsureCapacity, this, hm, hr]
  · rw [hl]; simp; omega
  · intro j hj
    rw [hp j hj, peek_replicate]

theorem logical_ext (d d' : ArrayDeque α) (hs : d'.size = d.size)
    (h : ∀ k : Int, 0 ≤ k → k < d.size → elemAt d' k = elemAt d k) : logical d' = logical d := by
  apply List.ext_getElem?
  intro k
  rw [logical_getElem_opt, logical_getElem_opt, hs]
  split_ifs with hk
  · rw [h k (by omega) hk]
  · rfl

theorem EnsureCapacity_spec (d : ArrayDeque α) (c : Int) (hwf : WellFormed d)
    (hne : c ≤ d.len ∨ 0 < d.size ∨ d.first = 0) :
    ∃ d' : ArrayDeque α, EnsureCapacity d c = some (d', d'.len) ∧ WellFormed d' ∧
      d'.size = d.size ∧ (∀ k : Int, 0 ≤ k → k < d.size → elemAt d' k = elemAt d k) ∧
      c ≤ d'.len ∧ d.len ≤ d'.len ∧
      d'.growthPolicy = d.growthPolicy ∧ d'.growthFactor = d.growthFactor ∧
      d'.growthChunk = d.growthChunk ∧ d'.compare = d.compare ∧
      (c ≤ d.len → d' = d) ∧
      (d.len < c → d'.first = 0 ∧ d'.last = d.size ∧ d'.len = computeCapacity d c ∧
        ∀ j : Int, 0 ≤ j → peek d'.data j = if j < d.size then elemAt d j else default) := by
  by_cases h : c ≤ d.len
  · refine ⟨d, EnsureCapacity_noop d c h, hwf, rfl, fun _ _ _ => rfl, h, le_refl _, rfl, rfl, rfl,
      rfl, fun _ => rfl, fun h' => ?_⟩
    omega
  · have hne2 : 0 < d.size ∨ d.first = 0 := by omega
    obtain ⟨data, he, hl, hp⟩ := EnsureCapacity_grow d c hwf hne2 (by omega)
    have hc := computeCapacity_ge d c
    have hwf2 := (wellFormed_iff d).1 hwf
    have hlen : ({ d with first := 0, last := d.size, data := data } : ArrayDeque α).len
        = computeCapacity d c := hl
    refine ⟨{ d with first := 0, last := d.size, data := data }, ?_, ?_, rfl, ?_, ?_, ?_, rfl, rfl,
      rfl, rfl, fun h' => absurd h' h, fun _ => ⟨rfl, rfl, hlen, hp⟩⟩
    · rw [he, hlen]
    · rw [wellFormed_iff, hlen]
      dsimp only
      omega
    · intro k hk0 hk1
      rw [elemAt_eq _ k (by dsimp only; omega) (by rw [hlen]; dsimp only; omega) hk0
        (by rw [hlen]; omega)]
      dsimp only
      rw [zero_add, if_pos (by rw [hlen]; omega), hp k hk0, if_pos hk1]
    · rw [hlen]; omega
    · rw [hlen]; omega

/-! ## Operations at the two ends -/

theorem logical_eq_of_getElem (d : ArrayDeque α) (l : List α) (hlen : (l.length : Int) = d.size)
    (h : ∀ k : Nat, (k : Int) < d.size → l[k]? = some (elemAt d k)) : logical d = l := by
  apply List.ext_getElem?
  intro k
  rw [logical_getElem_opt]
  split_ifs with hk
  · rw [h k hk]
  · rw [List.getElem?_eq_none (by omega)]

theorem AddFirst_spec (d : ArrayDeque α) (v : α) (hwf : WellFormed d) :
    ∃ d' : ArrayDeque α, AddFirst d v = some d' ∧ WellFormed d' ∧ d'.size = d.size + 1 ∧
      elemAt d' 0 = v ∧ (∀ k : Int, 0 ≤ k → k < d.size → elemAt d' (k + 1) = elemAt d k) ∧
      GetFirst d' = some (v, none) ∧ (d.size < d.len → d'.len = d.len) := by
  have hwf2 := (wellFormed_iff d).1 hwf
  obtain ⟨d1, he, hwf1, hs1, hel1, hc1, hmono, -, -, -, -, hsame, -⟩ :=
    EnsureCapacity_spec d (d.size + 1) hwf (by omega)
  have hw1 := (wellFormed_iff d1).1 hwf1
  have hlen1 : d1.len = d1.data.length := rfl
  have hb0 : 0 ≤ (if d1.first - 1 < 0 then d1.len - 1 else d1.first - 1) := by
    split_ifs <;> omega
  have hb1 : (if d1.first - 1 < 0 then d1.len - 1 else d1.first - 1) < d1.data.length := by
    split_ifs <;> omega
  have ha := assign_some d1.data _ v hb0 hb1
  refine ⟨{ d1 with first := if d1.first - 1 < 0 then d1.len - 1 else d1.first - 1,
                    data := d1.data.set (if d1.first - 1 < 0 then d1.len - 1
                      else d1.first - 1).toNat v,
                    size := d1.size + 1 }, ?_, ?_, ?_, ?_, ?_, ?_, ?_⟩
  · simp only [AddFirst, he, Option.bind_eq_bind, Option.some_bind, ha]
    rfl
  · rw [wellFormed_iff]
    simp only [ArrayDeque.len, List.length_set]
    rw [← hlen1]
    split_ifs <;> omega
  · simp only [hs1]
  · rw [elemAt_eq _ 0 (by simpa using hb0) (by simpa [ArrayDeque.len] using hb1) (le_refl _)
      (by simp only [ArrayDeque.len, List.length_set]; omega)]
    simp only [ArrayDeque.len, List.length_set]
    rw [← hlen1, peek_set _ _ _ _ hb0 hb1]
    split_ifs <;> first | rfl | omega
  · intro k hk0 hk1
    rw [← hel1 k hk0 hk1, elemAt_eq d1 k (by omega) (by omega) hk0 (by omega),
      elemAt_eq _ (k + 1) (by simpa using hb0) (by simpa [ArrayDeque.len] using hb1) (by omega)
      (by simp only [ArrayDeque.len, List.length_set]; omega)]
    simp only [ArrayDeque.len, List.length_set]
    rw [← hlen1, peek_set _ _ _ _ hb0 hb1]
    split_ifs <;> first | omega | (congr 1; omega)
  · have hsz : ¬ (d1.size + 1 = 0) := by omega
    simp only [GetFirst, hsz, if_false]
    rw [index_some _ _ hb0 (by simpa using hb1), peek_set _ _ _ _ hb0 hb1]
    simp
  · intro hlt
    rw [hsame (by omega)]
    simp [ArrayDeque.len]

theorem AddLast_spec (d : ArrayDeque α) (v : α) (hwf : WellFormed d) :
    ∃ d' : ArrayDeque α, AddLast d v = some d' ∧ WellFormed d' ∧ d'.size = d.size + 1 ∧
      elemAt d' d.size = v ∧ (∀ k : Int, 0 ≤ k → k < d.size → elemAt d' k = elemAt d k) ∧
      GetLast d' = some (v, none) ∧ (d.size < d.len → d'.len = d.len) := by
  have hwf2 := (wellFormed_iff d).1 hwf
  obtain ⟨d1, he, hwf1, hs1, hel1, hc1, hmono, -, -, -, -, hsame, -⟩ :=
    EnsureCapacity_spec d (d.size + 1) hwf (by omega)
  have hw1 := (wellFormed_iff d1).1 hwf1
  have hlen1 : d1.len = d1.data.length := rfl
  have hb0 : 0 ≤ d1.last := by omega
  have hb1 : d1.last < d1.data.length := by omega
  have ha := assign_some d1.data _ v hb0 hb1
  refine ⟨{ d1 with data := d1.data.set d1.last.toNat v,
                    last := if d1.last + 1 = d1.len then 0 else d1.last + 1,
                    size := d1.size + 1 }, ?_, ?_, ?_, ?_, ?_, ?_, ?_⟩
  · simp only [AddLast, he, Option.bind_eq_bind, Option.some_bind, ha]
    rfl
  · rw [wellFormed_iff]
    simp only [ArrayDeque.len, List.length_set]
    split_ifs <;> omega
  · simp only [hs1]
  · rw [elemAt_eq _ d.size (by dsimp only; omega)
      (by simp only [ArrayDeque.len, List.length_set]; omega) (by omega)
      (by simp only [ArrayDeque.len, List.length_set]; omega)]
    simp only [ArrayDeque.len, List.length_set]
    rw [peek_set _ _ _ _ hb0 hb1]
    split_ifs <;> first | rfl | omega
  · intro k hk0 hk1
    rw [← hel1 k hk0 hk1, elemAt_eq d1 k (by omega) (by omega) hk0 (by omega),
      elemAt_eq _ k (by dsimp only; omega)
      (by simp only [ArrayDeque.len, List.length_set]; omega) (by omega)
      (by simp only [ArrayDeque.len, List.length_set]; omega)]
    simp only [ArrayDeque.len, List.length_set]
    rw [peek_set _ _ _ _ hb0 hb1]
    split_ifs <;> first | omega | rfl | (congr 1 <;> omega)
  · have hsz : ¬ (d1.size + 1 = 0) := by omega
    simp only [GetLast, hsz, if_false]
    simp only [ArrayDeque.len, List.length_set]
    by_cases hl : d1.last + 1 = d1.data.length
    · rw [if_pos hl, if_pos rfl, index_some _ _ (by omega) (by simp only [List.length_set]; omega),
        peek_set _ _ _ _ hb0 hb1, if_pos (by omega)]
      rfl
    · rw [if_neg hl, if_neg (by omega), index_some _ _ (by omega) (by simp only [List.length_set]; omega),
        peek_set _ _ _ _ hb0 hb1, if_pos (by omega)]
      rfl
  · intro hlt
    rw [hsame (by omega)]
    simp [ArrayDeque.len]

theorem RemoveFirst_spec (d : ArrayDeque α) (hwf : WellFormed d) (hpos : 0 < d.size) :
    ∃ d' : ArrayDeque α, RemoveFirst d = some (d', (elemAt d 0, none)) ∧ WellFormed d' ∧
      d'.size = d.size - 1 ∧ d'.len = d.len ∧
      (∀ k : Int, 0 ≤ k → k < d.size - 1 → elemAt d' k = elemAt d (k + 1)) := by
  have hwf2 := (wellFormed_iff d).1 hwf
  have hlen : d.len = d.data.length := rfl
  refine ⟨{ d with first := if d.first + 1 = d.len then 0 else d.first + 1,
                   size := d.size - 1 }, ?_, ?_, rfl, rfl, ?_⟩
  · have hsz : ¬ d.size = 0 := by omega
    simp only [RemoveFirst, hsz, if_false]
    have hf : d.first < d.len := by omega
    rw [index_some _ _ (by omega) (by omega), elemAt_eq d 0 (by omega) (by omega) (le_refl _)
      (by omega)]
    simp only [add_zero, if_pos hf]
    rfl
  · rw [wellFormed_iff]
    simp only [ArrayDeque.len]
    split_ifs <;> omega
  · intro k hk0 hk1
    rw [elemAt_eq d (k + 1) (by omega) (by omega) (by omega) (by omega),
      elemAt_eq _ k (by dsimp only; split_ifs <;> omega)
        (by simp only [ArrayDeque.len]; split_ifs <;> omega) hk0
        (by simp only [ArrayDeque.len]; omega)]
    simp only [ArrayDeque.len]
    split_ifs <;> first | omega | rfl | (congr 1 <;> omega)

theorem RemoveLast_spec (d : ArrayDeque α) (hwf : WellFormed d) (hpos : 0 < d.size) :
    ∃ d' : ArrayDeque α, RemoveLast d = some (d', (elemAt d (d.size - 1), none)) ∧
      WellFormed d' ∧ d'.size = d.size - 1 ∧ d'.len = d.len ∧
      (∀ k : Int, 0 ≤ k → k < d.size - 1 → elemAt d' k = elemAt d k) := by
  have hwf2 := (wellFormed_iff d).1 hwf
  have hlen : d.len = d.data.length := rfl
  refine ⟨{ d with last := if d.last - 1 < 0 then d.len - 1 else d.last - 1,
                   size := d.size - 1 }, ?_, ?_, rfl, rfl, ?_⟩
  · have hsz : ¬ d.size = 0 := by omega
    simp only [RemoveLast, hsz, if_false]
    rw [index_some _ _ (by split_ifs <;> omega) (by split_ifs <;> omega),
      elemAt_eq d (d.size - 1) (by omega) (by omega) (by omega) (by omega)]
    have : (if d.last - 1 < 0 then d.len - 1 else d.last - 1) =
        (if d.first + (d.size - 1) < d.len then d.first + (d.size - 1)
          else d.first + (d.size - 1) - d.len) := by
      split_ifs <;> omega
    rw [this]
    rfl
  · rw [wellFormed_iff]
    simp only [ArrayDeque.len]
    split_ifs <;> omega
  · intro k hk0 hk1
    rfl

/-! ## Insertion at an interior index -/

theorem Add_room (d : ArrayDeque α) (i : Int) (v : α) (hwf : WellFormed d)
    (hroom : d.size < d.len) (hi0 : 0 < i) (hi1 : i < d.size) :
    ∃ d' : ArrayDeque α, Add d i v = some d' ∧ WellFormed d' ∧ d'.size = d.size + 1 ∧
      d'.len = d.len ∧ elemAt d' i = v ∧
      (∀ k : Int, 0 ≤ k → k < i → elemAt d' k = elemAt d k) ∧
      (∀ k : Int, i ≤ k → k < d.size → elemAt d' (k + 1) = elemAt d k) := by
  have hwf2 := (wellFormed_iff d).1 hwf
  have hlen : d.len = d.data.length := rfl
  have hn0 : ¬ i = 0 := by omega
  have hn1 : ¬ i = d.size := by omega
  have hn2 : ¬ (i < 0 ∨ i > d.size) := by omega
  have he := EnsureCapacity_noop d (d.size + 1) (by omega)
  simp only [Add, hn0, hn1, hn2, if_false, he, Option.bind_eq_bind, Option.some_bind]
  by_cases hA : d.first < d.last ∨ d.last = 0
  · rw [if_pos hA]
    by_cases hB : d.last = 0
    · simp only [hB, if_true]
      have hx := index_some d.data (d.len - 1) (by omega) (by omega)
      have ha1 := assign_some d.data 0 (peek d.data (d.len - 1)) (le_refl _) (by omega)
      obtain ⟨r, hr, hl, hp⟩ := copySlice_spec (d.data.set (0 : Int).toNat (peek d.data (d.len - 1)))
        (d.data.set (0 : Int).toNat (peek d.data (d.len - 1))) (i + d.first + 1) (i + d.first)
        (i + d.first + (d.len - (i + d.first)) - 1)
        (by omega) (by simp only [List.length_set]; omega) (by omega) (by omega)
        (by simp only [List.length_set]; omega)
      have ha2 := assign_some r (i + d.first) v (by omega)
        (by rw [hl]; simp only [List.length_set]; omega)
      simp only [hx, ha1, hr, ha2, Option.bind_eq_bind, Option.some_bind]
      have hl' : (r.length : Int) = d.data.length := by
        rw [hl]; simp only [List.length_set]
      have hpk : ∀ j : Int, peek (r.set (i + d.first).toNat v) j =
          if j = i + d.first then v
          else if i + d.first + 1 ≤ j ∧ j < d.len then
            (if j - 1 = 0 then peek d.data (d.len - 1) else peek d.data (j - 1))
          else (if j = 0 then peek d.data (d.len - 1) else peek d.data j) := by
        intro j
        rw [peek_set _ _ _ _ (by omega) (by omega), hp j,
          peek_set _ _ _ _ (le_refl _) (by omega), peek_set _ _ _ _ (le_refl _) (by omega)]
        simp only [List.length_set]
        split_ifs <;> first | omega | rfl | (congr 1 <;> omega)
      refine ⟨_, rfl, ?_, rfl, ?_, ?_, ?_, ?_⟩
      · rw [wellFormed_iff]
        simp only [ArrayDeque.len, List.length_set, hl]
        omega
      · simp only [ArrayDeque.len, List.length_set, hl]
      · rw [elemAt_eq _ i (by dsimp only; omega)
          (by simp only [ArrayDeque.len, List.length_set, hl]; omega) (by omega)
          (by simp only [ArrayDeque.len, List.length_set, hl]; omega)]
        dsimp only
        rw [hpk]
        simp only [ArrayDeque.len, List.length_set, hl]
        split_ifs <;> first | omega | rfl | (congr 1 <;> omega)
      · intro k hk0 hk1
        rw [elemAt_eq _ k (by dsimp only; omega)
          (by simp only [ArrayDeque.len, List.length_set, hl]; omega) (by omega)
          (by simp only [ArrayDeque.len, List.length_set, hl]; omega),
          elemAt_eq d k (by omega) (by omega) (by omega) (by omega)]
        dsimp only
        rw [hpk]
        simp only [ArrayDeque.len, List.length_set, hl]
        split_ifs <;> first | omega | rfl | (congr 1 <;> omega)
      · intro k hk0 hk1
        rw [elemAt_eq _ (k + 1) (by dsimp only; omega)
          (by simp only [ArrayDeque.len, List.length_set, hl]; omega) (by omega)
          (by simp only [ArrayDeque.len, List.length_set, hl]; omega),
          elemAt_eq d k (by omega) (by omega) (by omega) (by omega)]
        dsimp only
        rw [hpk]
        simp only [ArrayDeque.len, List.length_set, hl]
        split_ifs <;> first | omega | rfl | (congr 1 <;> omega)
    · simp only [hB, if_false]
      obtain ⟨r, hr, hl, hp⟩ := copySlice_spec d.data d.data (i + d.first + 1) (i + d.first)
        (i + d.first + (d.last - (i + d.first)))
        (by omega) (by omega) (by omega) (by omega) (by omega)
      have ha2 := assign_some r (i + d.first) v (by omega) (by omega)
      simp only [hr, ha2, Option.bind_eq_bind, Option.some_bind]
      have hpk : ∀ j : Int, peek (r.set (i + d.first).toNat v) j =
          if j = i + d.first then v
          else if i + d.first + 1 ≤ j ∧ j < d.last + 1 then peek d.data (j - 1)
          else peek d.data j := by
        intro j
        rw [peek_set _ _ _ _ (by omega) (by omega), hp j]
        split_ifs <;> first | omega | rfl | (congr 1 <;> omega)
      refine ⟨_, rfl, ?_, rfl, ?_, ?_, ?_, ?_⟩
      · rw [wellFormed_iff]
        simp only [ArrayDeque.len, List.length_set, hl]
        split_ifs <;> omega
      · simp only [ArrayDeque.len, List.length_set, hl]
      · rw [elemAt_eq _ i (by dsimp only; omega)
          (by simp only [ArrayDeque.len, List.length_set, hl]; omega) (by omega)
          (by simp only [ArrayDeque.len, List.length_set, hl]; omega)]
        dsimp only
        rw [hpk]
        simp only [ArrayDeque.len, List.length_set, hl]
        split_ifs <;> first | omega | rfl | (congr 1 <;> omega)
      · intro k hk0 hk1
        rw [elemAt_eq _ k (by dsimp only; omega)
          (by simp only [ArrayDeque.len, List.length_set, hl]; omega) (by omega)
          (by simp only [ArrayDeque.len, List.length_set, hl]; omega),
          elemAt_eq d k (by omega) (by omega) (by omega) (by omega)]
        dsimp only
        rw [hpk]
        simp only [ArrayDeque.len, List.length_set, hl]
        split_ifs <;> first | omega | rfl | (congr 1 <;> omega)
      · intro k hk0 hk1
        rw [elemAt_eq _ (k + 1) (by dsimp only; omega)
          (by simp only [ArrayDeque.len, List.length_set, hl]; omega) (by omega)
          (by simp only [ArrayDeque.len, List.length_set, hl]; omega),
          elemAt_eq d k (by omega) (by omega) (by omega) (by omega)]
        dsimp only
        rw [hpk]
        simp only [ArrayDeque.len, List.length_set, hl]
        split_ifs <;> first | omega | rfl | (congr 1 <;> omega)
  · rw [if_neg hA]
    have hm := emod_wrap (d.first + i) d.len (by omega) (by omega)
    rw [goMod_some _ _ (by omega) (by omega), hm]
    simp only [Option.bind_eq_bind, Option.some_bind]
    by_cases hw : d.first + i < d.len
    · have hn3 : ¬ d.first + i ≤ d.last := by omega
      simp only [hw, if_true, hn3, if_false]
      obtain ⟨r, hr, hl, hp⟩ := copySlice_spec d.data d.data (d.first - 1) d.first
        (d.first + (d.first + i - d.first))
        (by omega) (by omega) (by omega) (by omega) (by omega)
      have ha2 := assign_some r (d.first + i - 1) v (by omega) (by omega)
      simp only [hr, ha2, Option.bind_eq_bind, Option.some_bind]
      have hpk : ∀ j : Int, peek (r.set (d.first + i - 1).toNat v) j =
          if j = d.first + i - 1 then v
          else if d.first - 1 ≤ j ∧ j < d.first + i - 1 then peek d.data (j + 1)
          else peek d.data j := by
        intro j
        rw [peek_set _ _ _ _ (by omega) (by omega), hp j]
        split_ifs <;> first | omega | rfl | (congr 1 <;> omega)
      refine ⟨_, rfl, ?_, rfl, ?_, ?_, ?_, ?_⟩
      · rw [wellFormed_iff]
        simp only [ArrayDeque.len, List.length_set, hl]
        omega
      · simp only [ArrayDeque.len, List.length_set, hl]
      · rw [elemAt_eq _ i (by dsimp only; omega)
          (by simp only [ArrayDeque.len, List.length_set, hl]; omega) (by omega)
          (by simp only [ArrayDeque.len, List.length_set, hl]; omega)]
        dsimp only
        rw [hpk]
        simp only [ArrayDeque.len, List.length_set, hl]
        split_ifs <;> first | omega | rfl | (congr 1 <;> omega)
      · intro k hk0 hk1
        rw [elemAt_eq _ k (by dsimp only; omega)
          (by simp only [ArrayDeque.len, List.length_set, hl]; omega) (by omega)
          (by simp only [ArrayDeque.len, List.length_set, hl]; omega),
          elemAt_eq d k (by omega) (by omega) (by omega) (by omega)]
        dsimp only
        rw [hpk]
        simp only [ArrayDeque.len, List.length_set, hl]
        split_ifs <;> first | omega | rfl | (congr 1 <;> omega)
      · intro k hk0 hk1
        rw [elemAt_eq _ (k + 1) (by dsimp only; omega)
          (by simp only [ArrayDeque.len, List.length_set, hl]; omega) (by omega)
          (by simp only [ArrayDeque.len, List.length_set, hl]; omega),
          elemAt_eq d k (by omega) (by omega) (by omega) (by omega)]
        dsimp only
        rw [hpk]
        simp only [ArrayDeque.len, List.length_set, hl]
        split_ifs <;> first | omega | rfl | (congr 1 <;> omega)
    · have hn3 : d.first + i - d.len ≤ d.last := by omega
      simp only [hw, if_false, hn3, if_true]
      obtain ⟨r, hr, hl, hp⟩ := copySlice_spec d.data d.data (d.first + i - d.len + 1)
        (d.first + i - d.len) (d.first + i - d.len + (d.last - (d.first + i - d.len)))
        (by omega) (by omega) (by omega) (by omega) (by omega)
      have ha2 := assign_some r (d.first + i - d.len) v (by omega) (by omega)
      simp only [hr, ha2, Option.bind_eq_bind, Option.some_bind]
      have hpk : ∀ j : Int, peek (r.set (d.first + i - d.len).toNat v) j =
          if j = d.first + i - d.len then v
          else if d.first + i - d.len + 1 ≤ j ∧ j < d.last + 1 then peek d.data (j - 1)
          else peek d.data j := by
        intro j
        rw [peek_set _ _ _ _ (by omega) (by omega), hp j]
        split_ifs <;> first | omega | rfl | (congr 1 <;> omega)
      refine ⟨_, rfl, ?_, rfl, ?_, ?_, ?_, ?_⟩
      · rw [wellFormed_iff]
        simp only [ArrayDeque.len, List.length_set, hl]
        omega
      · simp only [ArrayDeque.len, List.length_set, hl]
      · rw [elemAt_eq _ i (by dsimp only; omega)
          (by simp only [ArrayDeque.len, List.length_set, hl]; omega) (by omega)
          (by simp only [ArrayDeque.len, List.length_set, hl]; omega)]
        dsimp only
        rw [hpk]
        simp only [ArrayDeque.len, List.length_set, hl]
        split_ifs <;> first | omega | rfl | (congr 1 <;> omega)
      · intro k hk0 hk1
        rw [elemAt_eq _ k (by dsimp only; omega)
          (by simp only [ArrayDeque.len, List.length_set, hl]; omega) (by omega)
          (by simp only [ArrayDeque.len, List.length_set, hl]; omega),
          elemAt_eq d k (by omega) (by omega) (by omega) (by omega)]
        dsimp only
        rw [hpk]
        simp only [ArrayDeque.len, List.length_set, hl]
        split_ifs <;> first | omega | rfl | (congr 1 <;> omega)
      · intro k hk0 hk1
        rw [elemAt_eq _ (k + 1) (by dsimp only; omega)
          (by simp only [ArrayDeque.len, List.length_set, hl]; omega) (by omega)
          (by simp only [ArrayDeque.len, List.length_set, hl]; omega),
          elemAt_eq d k (by omega) (by omega) (by omega) (by omega)]
        dsimp only
        rw [hpk]
        simp only [ArrayDeque.len, List.length_set, hl]
        split_ifs <;> first | omega | rfl | (congr 1 <;> omega)

theorem Add_after_EnsureCapacity (d d1 : ArrayDeque α) (i : Int) (v : α) (n : Int)
    (he : EnsureCapacity d (d.size + 1) = some (d1, n)) (hs : d1.size = d.size)
    (hroom : d1.size < d1.len) (hi0 : 0 < i) (hi1 : i < d.size) : Add d i v = Add d1 i v := by
  have hn0 : ¬ i = 0 := by omega
  have hn1 : ¬ i = d.size := by omega
  have hn2 : ¬ (i < 0 ∨ i > d.size) := by omega
  have hn1' : ¬ i = d1.size := by omega
  have hn2' : ¬ (i < 0 ∨ i > d1.size) := by omega
  have he1 := EnsureCapacity_noop d1 (d1.size + 1) (by omega)
  simp only [Add, hn0, hn1, hn2, hn1', hn2', if_false, he, he1, Option.bind_eq_bind,
    Option.some_bind]

theorem Add_interior_spec (d : ArrayDeque α) (i : Int) (v : α) (hwf : WellFormed d)
    (hi0 : 0 < i) (hi1 : i < d.size) :
    ∃ d' : ArrayDeque α, Add d i v = some d' ∧ WellFormed d' ∧ d'.size = d.size + 1 ∧
      (d.size < d.len → d'.len = d.len) ∧ elemAt d' i = v ∧
      (∀ k : Int, 0 ≤ k → k < i → elemAt d' k = elemAt d k) ∧
      (∀ k : Int, i ≤ k → k < d.size → elemAt d' (k + 1) = elemAt d k) := by
  obtain ⟨d1, he, hwf1, hs1, hel1, hc1, -, -, -, -, -, hsame, -⟩ :=
    EnsureCapacity_spec d (d.size + 1) hwf (by omega)
  obtain ⟨d', ha, hwf', hs', hl', hv, hlo, hhi⟩ :=
    Add_room d1 i v hwf1 (by omega) hi0 (by omega)
  refine ⟨d', ?_, hwf', by omega, ?_, hv, ?_, ?_⟩
  · rw [Add_after_EnsureCapacity d d1 i v _ he hs1 (by omega) hi0 hi1, ha]
  · intro h
    rw [hl', hsame (by omega)]
  · intro k hk0 hk1
    rw [hlo k hk0 hk1, hel1 k hk0 (by omega)]
  · intro k hk0 hk1
    rw [hhi k hk0 (by omega), hel1 k (by omega) hk1]

theorem Add_spec (d : ArrayDeque α) (i : Int) (v : α) (hwf : WellFormed d)
    (hi0 : 0 ≤ i) (hi1 : i ≤ d.size) :
    ∃ d' : ArrayDeque α, Add d i v = some d' ∧ WellFormed d' ∧ d'.size = d.size + 1 ∧
      (d.size < d.len → d'.len = d.len) ∧ elemAt d' i = v ∧
      (∀ k : Int, 0 ≤ k → k < i → elemAt d' k = elemAt d k) ∧
      (∀ k : Int, i ≤ k → k < d.size → elemAt d' (k + 1) = elemAt d k) := by
  by_cases h0 : i = 0
  · obtain ⟨d', ha, hwf', hs', hv, hsh, -, hl'⟩ := AddFirst_spec d v hwf
    subst h0
    refine ⟨d', ?_, hwf', hs', hl', hv, ?_, ?_⟩
    · simp only [Add, if_true, ha]
    · intro k hk0 hk1; omega
    · intro k hk0 hk1; exact hsh k hk0 hk1
  · by_cases h1 : i = d.size
    · obtain ⟨d', ha, hwf', hs', hv, hsh, -, hl'⟩ := AddLast_spec d v hwf
      subst h1
      refine ⟨d', ?_, hwf', hs', hl', hv, ?_, ?_⟩
      · simp only [Add, h0, if_false, if_true, ha]
      · intro k hk0 hk1; exact hsh k hk0 hk1
      · intro k hk0 hk1; omega
    · exact Add_interior_spec d i v hwf (by omega) (by omega)

/-! ## Indexed access -/

theorem Get_spec (d : ArrayDeque α) (k : Int) (hwf : WellFormed d) (hk0 : 0 ≤ k)
    (hk1 : k < d.size) : Get d k = some (elemAt d k, none) := by
  have hwf2 := (wellFormed_iff d).1 hwf
  have hlen : d.len = d.data.length := rfl
  have hn : ¬ (k < 0 ∨ k ≥ d.size) := by omega
  have hpos : 0 < d.len := by omega
  have h1 := Int.emod_nonneg (d.first + k) (by omega : d.len ≠ 0)
  have h2 := Int.emod_lt_of_pos (d.first + k) hpos
  have hix := index_some d.data ((d.first + k) % d.len) h1 (by omega)
  simp only [Get, hn, if_false, goMod_some _ _ (by omega : 0 ≤ d.first + k) hpos,
    Option.bind_eq_bind, Option.some_bind, hix]
  rfl

theorem RemoveElementAt_interior (d : ArrayDeque α) (i : Int) (hwf : WellFormed d)
    (hi0 : 0 < i) (hi1 : i < d.size - 1) :
    ∃ d' : ArrayDeque α, RemoveElementAt d i = some (d', (elemAt d i, none)) ∧
      WellFormed d' ∧ d'.size = d.size - 1 ∧ d'.len = d.len ∧
      (∀ k : Int, 0 ≤ k → k < i → elemAt d' k = elemAt d k) ∧
      (∀ k : Int, i ≤ k → k < d.size - 1 → elemAt d' k = elemAt d (k + 1)) := by
  have hwf2 := (wellFormed_iff d).1 hwf
  have hlen : d.len = d.data.length := rfl
  have hn0 : ¬ i = 0 := by omega
  have hn1 : ¬ i = d.size - 1 := by omega
  have hn2 : ¬ (i < 0 ∨ i ≥ d.size) := by omega
  have hm := emod_wrap (d.first + i) d.len (by omega) (by omega)
  have hel := elemAt_eq d i (by omega) (by omega) (by omega) (by omega)
  simp only [RemoveElementAt, hn0, hn1, hn2, if_false, goMod_some _ _ (by omega : 0 ≤ d.first + i)
    (by omega : 0 < d.len), hm, Option.bind_eq_bind, Option.some_bind, hel]
  by_cases hw : d.first + i < d.len
  · simp only [hw, if_true]
    rw [index_some d.data (d.first + i) (by omega) (by omega)]
    simp only [Option.some_bind]
    by_cases hA : d.first < d.last ∨ d.last = 0
    · rw [if_pos hA]
      by_cases hB : d.first + i - d.first < d.size - (d.first + i - d.first) - 1
      · rw [if_pos hB]
        obtain ⟨r, hr, hl, hp⟩ := copySlice_spec d.data d.data (d.first + 1) d.first
          (d.first + (d.first + i - d.first))
          (by omega) (by omega) (by omega) (by omega) (by omega)
        simp only [hr, Option.bind_eq_bind, Option.some_bind]
        refine ⟨_, rfl, ?_, rfl, ?_, ?_, ?_⟩
        · rw [wellFormed_iff]
          simp only [ArrayDeque.len, hl]
          omega
        · simp only [ArrayDeque.len, hl]
        · intro k hk0 hk1
          rw [elemAt_eq _ k (by dsimp only; omega)
            (by simp only [ArrayDeque.len, hl]; omega) (by omega)
            (by simp only [ArrayDeque.len, hl]; omega),
            elemAt_eq d k (by omega) (by omega) (by omega) (by omega)]
          dsimp only
          rw [hp]
          simp only [ArrayDeque.len, hl]
          split_ifs <;> first | omega | rfl | (congr 1 <;> omega)
        · intro k hk0 hk1
          rw [elemAt_eq _ k (by dsimp only; omega)
            (by simp only [ArrayDeque.len, hl]; omega) (by omega)
            (by simp only [ArrayDeque.len, hl]; omega),
            elemAt_eq d (k + 1) (by omega) (by omega) (by omega) (by omega)]
          dsimp only
          rw [hp]
          simp only [ArrayDeque.len, hl]
          split_ifs <;> first | omega | rfl | (congr 1 <;> omega)
      · rw [if_neg hB]
        obtain ⟨r, hr, hl, hp⟩ := copySlice_spec d.data d.data (d.first + i) (d.first + i + 1)
          (d.first + i + 1 + (d.size - (d.first + i - d.first) - 1))
          (by omega) (by omega) (by omega) (by omega) (by omega)
        simp only [hr, Option.bind_eq_bind, Option.some_bind]
        refine ⟨_, rfl, ?_, rfl, ?_, ?_, ?_⟩
        · rw [wellFormed_iff]
          simp only [ArrayDeque.len, hl]
          split_ifs <;> omega
        · simp only [ArrayDeque.len, hl]
        · intro k hk0 hk1
          rw [elemAt_eq _ k (by dsimp only; first | omega | (split_ifs <;> omega))
            (by simp only [ArrayDeque.len, hl]; first | omega | (split_ifs <;> omega)) (by omega)
            (by simp only [ArrayDeque.len, hl]; omega),
            elemAt_eq d k (by omega) (by omega) (by omega) (by omega)]
          dsimp only
          rw [hp]
          simp only [ArrayDeque.len, hl]
          split_ifs <;> first | omega | rfl | (congr 1 <;> omega)
        · intro k hk0 hk1
          rw [elemAt_eq _ k (by dsimp only; first | omega | (split_ifs <;> omega))
            (by simp only [ArrayDeque.len, hl]; first | omega | (split_ifs <;> omega)) (by omega)
            (by simp only [ArrayDeque.len, hl]; omega),
            elemAt_eq d (k + 1) (by omega) (by omega) (by omega) (by omega)]
          dsimp only
          rw [hp]
          simp only [ArrayDeque.len, hl]
          split_ifs <;> first | omega | rfl | (congr 1 <;> omega)
    · rw [if_neg hA]
      have hC : ¬ d.first + i < d.last := by omega
      rw [if_neg hC]
      obtain ⟨r, hr, hl, hp⟩ := copySlice_spec d.data d.data (d.first + 1) d.first
        (d.first + (d.first + i - d.first))
        (by omega) (by omega) (by omega) (by omega) (by omega)
      simp only [hr, Option.bind_eq_bind, Option.some_bind]
      refine ⟨_, rfl, ?_, rfl, ?_, ?_, ?_⟩
      · rw [wellFormed_iff]
        simp only [ArrayDeque.len, hl]
        split_ifs <;> omega
      · simp only [ArrayDeque.len, hl]
      · intro k hk0 hk1
        rw [elemAt_eq _ k (by dsimp only; first | omega | (split_ifs <;> omega))
          (by simp only [ArrayDeque.len, hl]; first | omega | (split_ifs <;> omega)) (by omega)
          (by simp only [ArrayDeque.len, hl]; omega),
          elemAt_eq d k (by omega) (by omega) (by omega) (by omega)]
        dsimp only
        rw [hp]
        simp only [ArrayDeque.len, hl]
        split_ifs <;> first | omega | rfl | (congr 1 <;> omega)
      · intro k hk0 hk1
        rw [elemAt_eq _ k (by dsimp only; first | omega | (split_ifs <;> omega))
          (by simp only [ArrayDeque.len, hl]; first | omega | (split_ifs <;> omega)) (by omega)
          (by simp only [ArrayDeque.len, hl]; omega),
          elemAt_eq d (k + 1) (by omega) (by omega) (by omega) (by omega)]
        dsimp only
        rw [hp]
        simp only [ArrayDeque.len, hl]
        split_ifs <;> first | omega | rfl | (congr 1 <;> omega)
  · simp only [hw, if_false]
    rw [index_some d.data (d.first + i - d.len) (by omega) (by omega)]
    simp only [Option.some_bind]
    have hA : ¬ (d.first < d.last ∨ d.last = 0) := by omega
    have hC : d.first + i - d.len < d.last := by omega
    rw [if_neg hA, if_pos hC]
    obtain ⟨r, hr, hl, hp⟩ := copySlice_spec d.data d.data (d.first + i - d.len)
      (d.first + i - d.len + 1) (d.first + i - d.len + 1 + (d.last - (d.first + i - d.len) - 1))
      (by omega) (by omega) (by omega) (by omega) (by omega)
    simp only [hr, Option.bind_eq_bind, Option.some_bind]
    refine ⟨_, rfl, ?_, rfl, ?_, ?_, ?_⟩
    · rw [wellFormed_iff]
      simp only [ArrayDeque.len, hl]
      omega
    · simp only [ArrayDeque.len, hl]
    · intro k hk0 hk1
      rw [elemAt_eq _ k (by dsimp only; omega)
        (by simp only [ArrayDeque.len, hl]; omega) (by omega)
        (by simp only [ArrayDeque.len, hl]; omega),
        elemAt_eq d k (by omega) (by omega) (by omega) (by omega)]
      dsimp only
      rw [hp]
      simp only [ArrayDeque.len, hl]
      split_ifs <;> first | omega | rfl | (congr 1 <;> omega)
    · intro k hk0 hk1
      rw [elemAt_eq _ k (by dsimp only; omega)
        (by simp only [ArrayDeque.len, hl]; omega) (by omega)
        (by simp only [ArrayDeque.len, hl]; omega),
        elemAt_eq d (k + 1) (by omega) (by omega) (by omega) (by omega)]
      dsimp only
      rw [hp]
      simp only [ArrayDeque.len, hl]
      split_ifs <;> first | omega | rfl | (congr 1 <;> omega)

theorem RemoveElementAt_spec (d : ArrayDeque α) (i : Int) (hwf : WellFormed d)
    (hi0 : 0 ≤ i) (hi1 : i < d.size) :
    ∃ d' : ArrayDeque α, RemoveElementAt d i = some (d', (elemAt d i, none)) ∧
      WellFormed d' ∧ d'.size = d.size - 1 ∧ d'.len = d.len ∧
      (∀ k : Int, 0 ≤ k → k < i → elemAt d' k = elemAt d k) ∧
      (∀ k : Int, i ≤ k → k < d.size - 1 → elemAt d' k = elemAt d (k + 1)) := by
  by_cases h0 : i = 0
  · obtain ⟨d', hr, hwf', hs', hl', hsh⟩ := RemoveFirst_spec d hwf (by omega)
    subst h0
    refine ⟨d', ?_, hwf', hs', hl', ?_, ?_⟩
    · simp only [RemoveElementAt, if_true, hr]
    · intro k hk0 hk1; omega
    · intro k hk0 hk1; exact hsh k hk0 hk1
  · by_cases h1 : i = d.size - 1
    · obtain ⟨d', hr, hwf', hs', hl', hsh⟩ := RemoveLast_spec d hwf (by omega)
      subst h1
      refine ⟨d', ?_, hwf', hs', hl', ?_, ?_⟩
      · simp only [RemoveElementAt, h0, if_false, if_true, hr]
      · intro k hk0 hk1; exact hsh k hk0 hk1
      · intro k hk0 hk1; omega
    · exact RemoveElementAt_interior d i hwf (by omega) (by omega)

/-- C4: on a well-formed deque with `size > 0`, `RemoveFirst` returns the element at
logical index 0 and leaves the previous contents without their first element; `RemoveLast`
returns the element at logical index `size - 1` and leaves the previous contents without their
last element; both decrease the size by one and keep the order of what remains (the contents
are compared as lists), whatever the position of `first` and `last` in the buffer. -/
theorem RemoveFirst_RemoveLast_contents (d : ArrayDeque α) (hwf : WellFormed d)
    (hpos : 0 < d.size) :
    (∃ (d' : ArrayDeque α) (x : α), RemoveFirst d = some (d', (x, none)) ∧
      Get d 0 = some (x, none) ∧ (logical d).head? = some x ∧
      logical d' = (logical d).tail ∧ d'.size = d.size - 1) ∧
    (∃ (d' : ArrayDeque α) (x : α), RemoveLast d = some (d', (x, none)) ∧
      Get d (d.size - 1) = some (x, none) ∧ (logical d).getLast? = some x ∧
      logical d' = (logical d).dropLast ∧ d'.size = d.size - 1) := by
  constructor
  · obtain ⟨d', hr, hwf', hs', -, hsh⟩ := RemoveFirst_spec d hwf hpos
    refine ⟨d', elemAt d 0, hr, Get_spec d 0 hwf (le_refl _) hpos, ?_, ?_, hs'⟩
    · rw [List.head?_eq_getElem?, logical_getElem_opt, if_pos (by omega)]
      rfl
    · apply logical_eq_of_getElem
      · rw [List.length_tail, logical_length]; omega
      · intro k hk
        rw [List.getElem?_tail, logical_getElem_opt, if_pos (by omega), hsh k (by omega) (by omega)]
        rfl
  · obtain ⟨d', hr, hwf', hs', -, hsh⟩ := RemoveLast_spec d hwf hpos
    refine ⟨d', elemAt d (d.size - 1), hr, Get_spec d _ hwf (by omega) (by omega), ?_, ?_, hs'⟩
    · rw [List.getLast?_eq_getElem?, logical_getElem_opt, logical_length, if_pos (by omega)]
      congr 2; omega
    · apply logical_eq_of_getElem
      · rw [List.length_dropLast, logical_length]; omega
      · intro k hk
        rw [List.dropLast_eq_take, List.getElem?_take, logical_length, if_pos (by omega),
          logical_getElem_opt, if_pos (by omega), hsh k (by omega) (by omega)]

/-! ## Construction and linearization -/

theorem getElem_opt_eq_peek (s : List α) (k : Nat) (h : k < s.length) :
    s[k]? = some (peek s k) := by
  rw [peek_def _ _ (by omega)]
  simp [List.getElem?_eq_getElem h]

theorem NewArrayDequeWithParams_spec (capacity growthPolicy : Int) (growthFactor : ℚ)
    (growthChunk : Int) (compare : α → α → Bool) (d : ArrayDeque α)
    (h : NewArrayDequeWithParams capacity growthPolicy growthFactor growthChunk compare = some d) :
    0 ≤ capacity ∧ 0 ≤ growthFactor ∧ 0 ≤ growthChunk ∧ d.len = capacity ∧ d.size = 0 ∧
      d.first = 0 ∧ d.last = 0 ∧ d.growthPolicy = growthPolicy ∧
      d.growthFactor = growthFactor ∧ d.growthChunk = growthChunk ∧ d.compare = compare := by
  unfold NewArrayDequeWithParams at h
  split_ifs at h with h1 h2 h3
  rw [make_some _ (by omega)] at h
  simp only [Option.bind_eq_bind, Option.some_bind, Option.pure_def, Option.some.injEq] at h
  subst h
  refine ⟨by omega, le_of_not_lt h2, by omega, ?_, rfl, rfl, rfl, rfl, rfl, rfl, rfl⟩
  simp only [ArrayDeque.len, List.length_replicate]
  omega

theorem wellFormed_of_fresh (d : ArrayDeque α) (hc : 0 ≤ d.len) (hs : d.size = 0)
    (hf : d.first = 0) (hl : d.last = 0) : WellFormed d := by
  rw [wellFormed_iff]
  omega

theorem ToArray_spec (d : ArrayDeque α) (hwf : WellFormed d) (hne : 0 < d.size ∨ d.first = 0) :
    ToArray d = some (logical d) := by
  have hwf2 := (wellFormed_iff d).1 hwf
  obtain ⟨r, hr, hl, hp⟩ := toArray_spec d (List.replicate d.size.toNat default) hwf hne
    (by simp)
  simp only [ToArray, make_some _ hwf2.1, Option.bind_eq_bind, Option.some_bind, hr,
    Option.some.injEq]
  symm
  apply logical_eq_of_getElem
  · rw [hl]; simp; omega
  · intro k hk
    rw [getElem_opt_eq_peek _ _ (by rw [hl]; simp; omega), hp k (by omega), if_pos hk]

theorem AddFirst_logical (d : ArrayDeque α) (v : α) (hwf : WellFormed d) :
    ∃ d' : ArrayDeque α, AddFirst d v = some d' ∧ WellFormed d' ∧
      logical d' = v :: logical d ∧ GetFirst d' = some (v, none) ∧ d'.size = d.size + 1 := by
  obtain ⟨d', ha, hwf', hs', hv, hsh, hg, -⟩ := AddFirst_spec d v hwf
  have hwf2 := (wellFormed_iff d).1 hwf
  refine ⟨d', ha, hwf', ?_, hg, hs'⟩
  apply logical_eq_of_getElem
  · simp [logical_length]; omega
  · intro k hk
    cases k with
    | zero => simp [hv]
    | succ m =>
      rw [List.getElem?_cons_succ, logical_getElem_opt, if_pos (by omega),
        ← hsh m (by omega) (by omega)]
      rfl

theorem AddLast_logical (d : ArrayDeque α) (v : α) (hwf : WellFormed d) :
    ∃ d' : ArrayDeque α, AddLast d v = some d' ∧ WellFormed d' ∧
      logical d' = logical d ++ [v] ∧ GetLast d' = some (v, none) ∧ d'.size = d.size + 1 := by
  obtain ⟨d', ha, hwf', hs', hv, hsh, hg, -⟩ := AddLast_spec d v hwf
  have hwf2 := (wellFormed_iff d).1 hwf
  refine ⟨d', ha, hwf', ?_, hg, hs'⟩
  apply logical_eq_of_getElem
  · simp [logical_length]; omega
  · intro k hk
    by_cases h : (k : Int) < d.size
    · rw [List.getElem?_append_left (by rw [logical_length]; omega), logical_getElem_opt,
        if_pos h, hsh k (by omega) h]
    · rw [List.getElem?_append_right (by rw [logical_length]; omega), logical_length]
      have h1 : k - d.size.toNat = 0 := by omega
      have h2 : (k : Int) = d.size := by omega
      rw [h1, h2, hv]
      rfl

theorem addLastAll_spec (xs : List α) (d : ArrayDeque α) (hwf : WellFormed d)
    (hne : 0 < d.size ∨ d.first = 0) :
    ∃ d' : ArrayDeque α, addLastAll d xs = some d' ∧ WellFormed d' ∧
      logical d' = logical d ++ xs ∧ (0 < d'.size ∨ d'.first = 0) := by
  induction xs generalizing d with
  | nil => exact ⟨d, rfl, hwf, by simp, hne⟩
  | cons x xs ih =>
    obtain ⟨d1, ha, hwf1, hl1, -, hs1⟩ := AddLast_logical d x hwf
    have hwf2 := (wellFormed_iff d).1 hwf
    obtain ⟨d', ha', hwf', hl', hne'⟩ := ih d1 hwf1 (by omega)
    refine ⟨d', ?_, hwf', ?_, hne'⟩
    · simp only [addLastAll, List.foldlM_cons, ha, Option.bind_eq_bind, Option.some_bind]
      exact ha'
    · rw [hl', hl1]; simp

theorem addFirstAll_spec (xs : List α) (d : ArrayDeque α) (hwf : WellFormed d)
    (hne : 0 < d.size ∨ d.first = 0) :
    ∃ d' : ArrayDeque α, addFirstAll d xs = some d' ∧ WellFormed d' ∧
      logical d' = xs.reverse ++ logical d ∧ (0 < d'.size ∨ d'.first = 0) := by
  induction xs generalizing d with
  | nil => exact ⟨d, rfl, hwf, by simp, hne⟩
  | cons x xs ih =>
    obtain ⟨d1, ha, hwf1, hl1, -, hs1⟩ := AddFirst_logical d x hwf
    have hwf2 := (wellFormed_iff d).1 hwf
    obtain ⟨d', ha', hwf', hl', hne'⟩ := ih d1 hwf1 (by omega)
    refine ⟨d', ?_, hwf', ?_, hne'⟩
    · simp only [addFirstAll, List.foldlM_cons, ha, Option.bind_eq_bind, Option.some_bind]
      exact ha'
    · rw [hl', hl1]; simp

theorem logical_of_size_zero (d : ArrayDeque α) (h : d.size = 0) : logical d = [] := by
  simp [logical, h]

/-- C3: on a well-formed deque of any capacity (0 included) and with any growth policy,
`AddFirst(v)` returns normally and puts `v` in front of the previous contents, after which
`GetFirst` returns `v`; `AddLast(v)` returns normally and puts `v` behind the previous
contents, after which `GetLast` returns `v`; each grows the size by exactly one.  On a deque
just returned by a constructor, `AddLast(x1) .. AddLast(xn)` makes `ToArray` return
`[x1, .., xn]` and `AddFirst(x1) .. AddFirst(xn)` makes it return `[xn, .., x1]`. -/
theorem AddFirst_AddLast_contents (d : ArrayDeque α) (v : α) (hwf : WellFormed d)
    (capacity growthPolicy : Int) (growthFactor : ℚ) (growthChunk : Int)
    (compare : α → α → Bool) (d0 : ArrayDeque α) (xs : List α)
    (hnew : NewArrayDequeWithParams capacity growthPolicy growthFactor growthChunk compare
      = some d0) :
    (∃ d' : ArrayDeque α, AddFirst d v = some d' ∧ logical d' = v :: logical d ∧
      GetFirst d' = some (v, none) ∧ d'.size = d.size + 1) ∧
    (∃ d' : ArrayDeque α, AddLast d v = some d' ∧ logical d' = logical d ++ [v] ∧
      GetLast d' = some (v, none) ∧ d'.size = d.size + 1) ∧
    (∃ d' : ArrayDeque α, addLastAll d0 xs = some d' ∧ ToArray d' = some xs) ∧
    (∃ d' : ArrayDeque α, addFirstAll d0 xs = some d' ∧ ToArray d' = some xs.reverse) := by
  obtain ⟨hc, -, -, hlen, hs, hf, hl, -⟩ := NewArrayDequeWithParams_spec _ _ _ _ _ _ hnew
  have hwf0 := wellFormed_of_fresh d0 (by omega) hs hf hl
  have hl0 := logical_of_size_zero d0 hs
  refine ⟨?_, ?_, ?_, ?_⟩
  · obtain ⟨d', ha, -, h1, h2, h3⟩ := AddFirst_logical d v hwf
    exact ⟨d', ha, h1, h2, h3⟩
  · obtain ⟨d', ha, -, h1, h2, h3⟩ := AddLast_logical d v hwf
    exact ⟨d', ha, h1, h2, h3⟩
  · obtain ⟨d', ha, hwf', h1, h2⟩ := addLastAll_spec xs d0 hwf0 (Or.inr hf)
    refine ⟨d', ha, ?_⟩
    rw [ToArray_spec d' hwf' h2, h1, hl0, List.nil_append]
  · obtain ⟨d', ha, hwf', h1, h2⟩ := addFirstAll_spec xs d0 hwf0 (Or.inr hf)
    refine ⟨d', ha, ?_⟩
    rw [ToArray_spec d' hwf' h2, h1, hl0, List.append_nil]

theorem wraparoundRun_eq : wraparoundRun = some wraparoundState := by
  rfl

theorem wellFormed_wraparoundState : WellFormed wraparoundState := by
  unfold WellFormed
  decide

/-- C5: a well-formed deque holding at least one element is in one of the layouts
(a) `first < last`, (b) `0 < last ≤ first`, (c) `last = 0`, and in each of them `ToArray`
returns a slice of length `size` whose `k`-th entry is the value `Get(k)` returns.  `ToArray` only reads the
receiver (the embedding returns no new state for it).  The state of `TestWraparound`
(capacity 4, `first = last = 2`) is in layout (b) and linearizes to `[3, 4, 5, 6]`. -/
theorem ToArray_three_layouts (d : ArrayDeque α) (hwf : WellFormed d) (hpos : 0 < d.size) :
    (d.first < d.last ∨ (0 < d.last ∧ d.last ≤ d.first) ∨ d.last = 0) ∧
    (∃ a : List α, ToArray d = some a ∧ (a.length : Int) = d.size ∧ a = logical d ∧
      ∀ k : Int, 0 ≤ k → k < d.size →
        ∃ x : α, a[k.toNat]? = some x ∧ Get d k = some (x, none)) ∧
    (wraparoundRun = some wraparoundState ∧
      (0 < wraparoundState.last ∧ wraparoundState.last ≤ wraparoundState.first) ∧
      ToArray wraparoundState = some [3, 4, 5, 6]) := by
  have hwf2 := (wellFormed_iff d).1 hwf
  refine ⟨by omega, ⟨logical d, ToArray_spec d hwf (Or.inl hpos), ?_, rfl, ?_⟩, rfl, by decide,
    by decide⟩
  · rw [logical_length]; omega
  · intro k hk0 hk1
    refine ⟨elemAt d k, ?_, Get_spec d k hwf hk0 hk1⟩
    rw [logical_getElem_opt, if_pos (by omega)]
    congr 2; omega

theorem RemoveFirst_RemoveLast_contents_witness :
    (∃ (d' : ArrayDeque Int) (x : Int), RemoveFirst wraparoundState = some (d', (x, none)) ∧
      Get wraparoundState 0 = some (x, none) ∧ ([3, 4, 5, 6] : List Int).head? = some x ∧
      logical d' = [4, 5, 6] ∧ d'.size = 3) ∧
    (∃ (d' : ArrayDeque Int) (x : Int), RemoveLast wraparoundState = some (d', (x, none)) ∧
      Get wraparoundState 3 = some (x, none) ∧ ([3, 4, 5, 6] : List Int).getLast? = some x ∧
      logical d' = [3, 4, 5] ∧ d'.size = 3) :=
  RemoveFirst_RemoveLast_contents wraparoundState wellFormed_wraparoundState (by decide)

theorem AddFirst_AddLast_contents_witness :
    (∃ d' : ArrayDeque Int, AddFirst wraparoundState 9 = some d' ∧
      logical d' = [9, 3, 4, 5, 6] ∧ GetFirst d' = some (9, none) ∧ d'.size = 5) ∧
    (∃ d' : ArrayDeque Int, AddLast wraparoundState 9 = some d' ∧
      logical d' = [3, 4, 5, 6, 9] ∧ GetLast d' = some (9, none) ∧ d'.size = 5) ∧
    (∃ d' : ArrayDeque Int,
      addLastAll zeroCapacityState [1, 2, 3] = some d' ∧ ToArray d' = some [1, 2, 3]) ∧
    (∃ d' : ArrayDeque Int,
      addFirstAll zeroCapacityState [1, 2, 3] = some d' ∧ ToArray d' = some [3, 2, 1]) :=
  AddFirst_AddLast_contents wraparoundState 9 wellFormed_wraparoundState
    0 GrowthPolicyAbsolute DefaultGrowthFactor 0 intCompare zeroCapacityState [1, 2, 3] rfl

theorem ToArray_three_layouts_witness :
    ((2 : Int) < 2 ∨ ((0 : Int) < 2 ∧ (2 : Int) ≤ 2) ∨ (2 : Int) = 0) ∧
    (∃ a : List Int, ToArray wraparoundState = some a ∧ (a.length : Int) = 4 ∧
      a = [3, 4, 5, 6] ∧
      ∀ k : Int, 0 ≤ k → k < 4 →
        ∃ x : Int, a[k.toNat]? = some x ∧ Get wraparoundState k = some (x, none)) ∧
    (wraparoundRun = some wraparoundState ∧
      (0 < wraparoundState.last ∧ wraparoundState.last ≤ wraparoundState.first) ∧
      ToArray wraparoundState = some [3, 4, 5, 6]) :=
  ToArray_three_layouts wraparoundState wellFormed_wraparoundState (by decide)

/-! ## Every reachable state is well-formed -/

theorem copySlice_length {β : Type} (dst src : List β) (dlo slo shi : Int) (r : List β)
    (h : copySlice dst dlo src slo shi = some r) : r.length = dst.length := by
  unfold copySlice slice at h
  split_ifs at h with h1
  · simp only [Option.bind_eq_bind, Option.some_bind] at h
    unfold copyAt at h
    split_ifs at h with h2
    simp only [Option.some.injEq] at h
    subst h
    simp; omega
  · simp at h

theorem toArray_length (d : ArrayDeque α) (a r : List α) (h : toArray d a = some r) :
    r.length = a.length := by
  unfold toArray at h
  split_ifs at h
  · exact copySlice_length _ _ _ _ _ _ h
  · simp only [Option.bind_eq_bind, Option.bind_eq_some] at h
    obtain ⟨a1, h1, h2⟩ := h
    rw [copySlice_length _ _ _ _ _ _ h2, copySlice_length _ _ _ _ _ _ h1]
  · exact copySlice_length _ _ _ _ _ _ h

theorem Add_preserves (d d' : ArrayDeque α) (i : Int) (v : α) (hwf : WellFormed d)
    (h : Add d i v = some d') : WellFormed d' := by
  by_cases hr : 0 ≤ i ∧ i ≤ d.size
  · obtain ⟨d1, ha, hwf1, -⟩ := Add_spec d i v hwf hr.1 hr.2
    rw [ha] at h
    simp only [Option.some.injEq] at h
    rw [← h]; exact hwf1
  · have hwf2 := (wellFormed_iff d).1 hwf
    have h0 : ¬ i = 0 := by omega
    have h1 : ¬ i = d.size := by omega
    have h2 : i < 0 ∨ i > d.size := by omega
    simp [Add, h0, h1, h2] at h

theorem AddFirst_preserves (d d' : ArrayDeque α) (v : α) (hwf : WellFormed d)
    (h : AddFirst d v = some d') : WellFormed d' := by
  obtain ⟨d1, ha, hwf1, -⟩ := AddFirst_spec d v hwf
  rw [ha] at h
  simp only [Option.some.injEq] at h
  rw [← h]; exact hwf1

theorem AddLast_preserves (d d' : ArrayDeque α) (v : α) (hwf : WellFormed d)
    (h : AddLast d v = some d') : WellFormed d' := by
  obtain ⟨d1, ha, hwf1, -⟩ := AddLast_spec d v hwf
  rw [ha] at h
  simp only [Option.some.injEq] at h
  rw [← h]; exact hwf1

theorem RemoveFirst_preserves (d d' : ArrayDeque α) (r : α × Option DequeError)
    (hwf : WellFormed d) (h : RemoveFirst d = some (d', r)) : WellFormed d' := by
  have hwf2 := (wellFormed_iff d).1 hwf
  by_cases hs : d.size = 0
  · simp only [RemoveFirst, hs, if_true, Option.pure_def, Option.some.injEq, Prod.mk.injEq] at h
    rw [← h.1]; exact hwf
  · obtain ⟨d1, ha, hwf1, -⟩ := RemoveFirst_spec d hwf (by omega)
    rw [ha] at h
    simp only [Option.some.injEq, Prod.mk.injEq] at h
    rw [← h.1]; exact hwf1

theorem RemoveLast_preserves (d d' : ArrayDeque α) (r : α × Option DequeError)
    (hwf : WellFormed d) (h : RemoveLast d = some (d', r)) : WellFormed d' := by
  have hwf2 := (wellFormed_iff d).1 hwf
  by_cases hs : d.size = 0
  · simp only [RemoveLast, hs, if_true, Option.pure_def, Option.some.injEq, Prod.mk.injEq] at h
    rw [← h.1]; exact hwf
  · obtain ⟨d1, ha, hwf1, -⟩ := RemoveLast_spec d hwf (by omega)
    rw [ha] at h
    simp only [Option.some.injEq, Prod.mk.injEq] at h
    rw [← h.1]; exact hwf1

theorem RemoveElementAt_preserves (d d' : ArrayDeque α) (i : Int) (r : α × Option DequeError)
    (hwf : WellFormed d) (h : RemoveElementAt d i = some (d', r)) : WellFormed d' := by
  by_cases h0 : i = 0
  · simp only [RemoveElementAt, h0, if_true] at h
    exact RemoveFirst_preserves d d' r hwf h
  · by_cases h1 : i = d.size - 1
    · unfold RemoveElementAt at h
      rw [if_neg h0, if_pos h1] at h
      exact RemoveLast_preserves d d' r hwf h
    · by_cases h2 : i < 0 ∨ i ≥ d.size
      · simp only [RemoveElementAt, h0, h1, h2, if_false, if_true, Option.pure_def,
          Option.some.injEq, Prod.mk.injEq] at h
        rw [← h.1]; exact hwf
      · obtain ⟨d1, ha, hwf1, -⟩ := RemoveElementAt_interior d i hwf (by omega) (by omega)
        rw [ha] at h
        simp only [Option.some.injEq, Prod.mk.injEq] at h
        rw [← h.1]; exact hwf1

theorem Set_preserves (d d' : ArrayDeque α) (i : Int) (v : α) (r : α × Option DequeError)
    (hwf : WellFormed d) (h : Set d i v = some (d', r)) : WellFormed d' := by
  unfold Set at h
  split_ifs at h with h1
  · simp only [Option.pure_def, Option.some.injEq, Prod.mk.injEq] at h
    rw [← h.1]; exact hwf
  · simp only [Option.bind_eq_bind, Option.bind_eq_some, Option.pure_def, Option.some.injEq,
      Prod.mk.injEq] at h
    obtain ⟨idx, -, x, -, data, hd, h2, -⟩ := h
    unfold assign at hd
    split_ifs at hd
    simp only [Option.some.injEq] at hd
    subst hd
    rw [← h2]
    have hwf2 := (wellFormed_iff d).1 hwf
    rw [wellFormed_iff]
    simp only [ArrayDeque.len, List.length_set] at hwf2 ⊢
    exact hwf2

theorem TrimToSize_preserves (d d' : ArrayDeque α) (hwf : WellFormed d)
    (h : TrimToSize d = some d') : WellFormed d' := by
  have hwf2 := (wellFormed_iff d).1 hwf
  unfold TrimToSize at h
  split_ifs at h with h1
  · simp only [ToArray, make_some _ hwf2.1, Option.bind_eq_bind, Option.some_bind,
      Option.bind_eq_some, Option.pure_def, Option.some.injEq] at h
    obtain ⟨r, hr, h2⟩ := h
    have hl := toArray_length _ _ _ hr
    rw [List.length_replicate] at hl
    rw [← h2, wellFormed_iff]
    simp only [ArrayDeque.len, hl, and_self, and_true]
    omega
  · simp only [Option.pure_def, Option.some.injEq] at h
    rw [← h]; exact hwf

theorem Clear_preserves (d : ArrayDeque α) : WellFormed (Clear d) := by
  exact wellFormed_of_fresh (Clear d) (by simp only [ArrayDeque.len]; omega) rfl rfl rfl

theorem reachable_singletonState : Reachable singletonState :=
  Reachable.addLast defaultState singletonState 1
    (Reachable.construct DefaultCapacity GrowthPolicyRelative DefaultGrowthFactor
      DefaultGrowthChunk intCompare defaultState rfl) rfl

theorem reachable_emptiedState : Reachable emptiedState :=
  Reachable.removeFirst singletonState emptiedState (1, none) reachable_singletonState rfl

/-- C6 (the code breaks the claim): after `d := NewArrayDeque(intCompare); d.AddLast(1);
d.RemoveFirst()` the deque is empty with `first = last = 1`, and `ToArray` on that reachable
state panics: `toArray` takes its wrapped branch, computes `block1 = 9`, `block2 = -9` and
slices `a[9:]` of the empty result and `d.data[:-9]`. -/
theorem ToArray_panics_on_emptied_deque :
    NewArrayDeque intCompare = some defaultState ∧
    AddLast defaultState 1 = some singletonState ∧
    RemoveFirst singletonState = some (emptiedState, (1, none)) ∧
    Reachable emptiedState ∧ Size emptiedState = 0 ∧ ToArray emptiedState = none :=
  ⟨rfl, rfl, rfl, reachable_emptiedState, rfl, by decide⟩

/-- C7 (the code breaks the claim): on the reachable state left by
`d := NewArrayDeque(intCompare); d.AddLast(1); d.RemoveFirst()` (capacity 10, size 0,
`first = last = 1`) `TrimToSize` does not return: it calls `ToArray`, which panics there. -/
theorem TrimToSize_panics_on_emptied_deque :
    Reachable emptiedState ∧ Capacity emptiedState = 10 ∧ Size emptiedState = 0 ∧
      TrimToSize emptiedState = none :=
  ⟨reachable_emptiedState, rfl, rfl, rfl⟩

theorem wrapInt_of_fits (x : Int) (h0 : -2 ^ 63 ≤ x) (h1 : x < 2 ^ 63) : wrapInt x = x := by
  unfold wrapInt
  omega

theorem roundHalfEven_intCast (z : Int) : roundHalfEven (z : ℚ) = z := by
  have hf : Rat.floor (z : ℚ) = z := @Int.floor_intCast ℚ _ _ z
  simp only [roundHalfEven, hf, sub_self]
  norm_num

/-- An integer with at most 53 significant bits, scaled by a power of two, is a `float64`. -/
theorem roundFloat64_exact (m : Int) (k : Nat) (hm0 : 0 < m) (hm : m < 2 ^ 53) :
    roundFloat64 ((m : ℚ) * 2 ^ k) = (m : ℚ) * 2 ^ k := by
  have hq : (0 : ℚ) < (m : ℚ) * 2 ^ k := by positivity
  have hne : ¬ ((m : ℚ) * 2 ^ k = 0) := ne_of_gt hq
  have hlt : (m : ℚ) * 2 ^ k < (2 : ℚ) ^ ((53 + k : Nat) : Int) := by
    have h1 : (m : ℚ) < 2 ^ 53 := by exact_mod_cast hm
    rw [zpow_natCast, pow_add]
    exact mul_lt_mul_of_pos_right h1 (by positivity)
  have hle : (2 : ℚ) ^ (binaryExponent ((m : ℚ) * 2 ^ k)) ≤ (m : ℚ) * 2 ^ k := by
    unfold binaryExponent
    rw [abs_of_pos hq]
    exact_mod_cast Int.zpow_log_le_self (by norm_num : 1 < 2) hq
  have he : binaryExponent ((m : ℚ) * 2 ^ k) < ((53 + k : Nat) : Int) :=
    (zpow_lt_zpow_iff_right₀ (by norm_num : (1 : ℚ) < 2)).1 (lt_of_le_of_lt hle hlt)
  have hE : max (binaryExponent ((m : ℚ) * 2 ^ k)) (-1022) ≤ 52 + (k : Int) := by
    rcases max_cases (binaryExponent ((m : ℚ) * 2 ^ k)) (-1022) with ⟨h, -⟩ | ⟨h, -⟩ <;>
      rw [h] <;> push_cast at he <;> omega
  unfold roundFloat64
  rw [if_neg hne]
  simp only []
  generalize max (binaryExponent ((m : ℚ) * 2 ^ k)) (-1022) = E at hE ⊢
  obtain ⟨j, hj⟩ : ∃ j : Nat, (j : Int) = k + 52 - E := ⟨(k + 52 - E).toNat, by omega⟩
  have hdiv : (m : ℚ) * 2 ^ k / 2 ^ (E - 52) = ((m * 2 ^ j : Int) : ℚ) := by
    have h2 : (2 : ℚ) ≠ 0 := by norm_num
    have e1 : ((2 : ℚ) ^ k) = (2 : ℚ) ^ ((k : Nat) : Int) := (zpow_natCast 2 k).symm
    have e2 : (((2 : Int) ^ j : Int) : ℚ) = (2 : ℚ) ^ ((j : Nat) : Int) := by
      push_cast; exact (zpow_natCast 2 j).symm
    rw [Int.cast_mul, e2, e1, mul_div_assoc, ← zpow_sub₀ h2, hj]
    congr 2
    omega
  rw [hdiv, roundHalfEven_intCast, ← hdiv, div_mul_cancel₀]
  positivity

theorem roundFloat64_intCast (n : Int) (h0 : 0 ≤ n) (h1 : n ≤ 2 ^ 53) :
    roundFloat64 (n : ℚ) = n := by
  rcases eq_or_lt_of_le h0 with h | h
  · rw [← h]; simp [roundFloat64]
  · rcases eq_or_lt_of_le h1 with h2 | h2
    · have := roundFloat64_exact 1 53 (by norm_num) (by norm_num)
      rw [h2]
      push_cast at this ⊢
      rw [one_mul] at this
      exact this
    · have := roundFloat64_exact n 0 h h2
      simpa using this

theorem roundFloat64_two : roundFloat64 (1 + 1) = 2 := by
  have := roundFloat64_exact 2 0 (by norm_num) (by norm_num)
  norm_num at this ⊢
  exact this

theorem floatToInt_intCast (z : Int) (h0 : 0 ≤ z) (h1 : z < 2 ^ 63) :
    floatToInt (z : ℚ) = z := by
  have hf : Rat.floor (z : ℚ) = z := @Int.floor_intCast ℚ _ _ z
  have hz : (0 : ℚ) ≤ (z : ℚ) := by exact_mod_cast h0
  have hr : -2 ^ 63 ≤ z ∧ z < 2 ^ 63 := ⟨by omega, h1⟩
  simp only [floatToInt, hz, if_true, hf, hr, and_self]

/-- With the factor `1.0` the `float64` product is exact for every length up to `2^53`. -/
theorem relative_double (n : Int) (h0 : 0 ≤ n) (h1 : n ≤ 2 ^ 53) :
    floatToInt (roundFloat64 (roundFloat64 (n : ℚ) * roundFloat64 (1 + 1))) = 2 * n := by
  rw [roundFloat64_intCast n h0 h1, roundFloat64_two]
  have h3 : (n : ℚ) * 2 = ((2 * n : Int) : ℚ) := by push_cast; ring
  rcases eq_or_lt_of_le h0 with h | h
  · subst h
    have hz : roundFloat64 (((0 : Int) : ℚ) * 2) = ((0 : Int) : ℚ) := by simp [roundFloat64]
    rw [hz]
    exact floatToInt_intCast 0 (le_refl _) (by norm_num)
  · have hx : roundFloat64 ((n : ℚ) * 2) = (n : ℚ) * 2 := by
      rcases eq_or_lt_of_le h1 with h2 | h2
      · have := roundFloat64_exact 1 54 (by norm_num) (by norm_num)
        rw [h2]
        push_cast at this ⊢
        norm_num at this ⊢
        exact this
      · have := roundFloat64_exact n 1 h h2
        rw [pow_one] at this
        exact this
    rw [hx, h3]
    exact floatToInt_intCast (2 * n) (by omega) (by omega)

theorem binaryExponent_eq (q : ℚ) (e : Int) (h0 : (2 : ℚ) ^ e ≤ q)
    (h1 : q < (2 : ℚ) ^ (e + 1)) : binaryExponent q = e := by
  have hq : 0 < q := lt_of_lt_of_le (by positivity) h0
  unfold binaryExponent
  rw [abs_of_pos hq]
  have a := (Int.zpow_le_iff_le_log (by norm_num : 1 < 2) hq).1 h0
  have b := (Int.lt_zpow_iff_log_lt (by norm_num : 1 < 2) hq).1 h1
  omega

/-- The integer `2^53 + 1` is not a `float64`: it lies half-way between `2^53` and
`2^53 + 2` and rounds to the one with the even significand. -/
theorem roundFloat64_tie : roundFloat64 (((2 ^ 53 + 1 : Int) : ℚ)) = 2 ^ 53 := by
  have he : binaryExponent (((2 ^ 53 + 1 : Int) : ℚ)) = 53 :=
    binaryExponent_eq _ 53 (by norm_num) (by norm_num)
  have hne : ¬ (((2 ^ 53 + 1 : Int) : ℚ) = 0) := by norm_num
  have hq : ((2 ^ 53 + 1 : Int) : ℚ) / (2 : ℚ) ^ ((53 : Int) - 52) = 2 ^ 52 + 1 / 2 := by
    norm_num
  have hf : Rat.floor ((2 : ℚ) ^ 52 + 1 / 2) = 2 ^ 52 :=
    (@Int.floor_eq_iff ℚ _ _ _ _).2 ⟨by norm_num, by norm_num⟩
  have hr : roundHalfEven ((2 : ℚ) ^ 52 + 1 / 2) = 2 ^ 52 := by
    simp only [roundHalfEven, hf]
    norm_num
  unfold roundFloat64
  rw [if_neg hne]
  simp only [he]
  rw [max_eq_left (by norm_num : (-1022 : Int) ≤ 53), hq, hr]
  norm_num

theorem relative_double_tie :
    floatToInt (roundFloat64 (roundFloat64 (((2 ^ 53 + 1 : Int) : ℚ)) * roundFloat64 (1 + 1)))
      = 2 ^ 54 := by
  rw [roundFloat64_tie, roundFloat64_two]
  have := roundFloat64_exact 1 54 (by norm_num) (by norm_num)
  have h3 : (2 : ℚ) ^ 53 * 2 = ((1 : Int) : ℚ) * 2 ^ 54 := by norm_num
  rw [h3, this]
  have h4 : ((1 : Int) : ℚ) * 2 ^ 54 = ((2 ^ 54 : Int) : ℚ) := by norm_num
  rw [h4]
  exact floatToInt_intCast (2 ^ 54) (by norm_num) (by norm_num)

theorem computeCapacity_absolute (d : ArrayDeque α) (c : Int)
    (hp : d.growthPolicy = GrowthPolicyAbsolute)
    (h0 : -2 ^ 63 ≤ d.len + d.growthChunk) (h1 : d.len + d.growthChunk < 2 ^ 63) :
    computeCapacity d c = max c (d.len + d.growthChunk) := by
  have hne : ¬ d.growthPolicy = GrowthPolicyRelative := by
    rw [hp]; decide
  simp only [computeCapacity, hne, if_false, wrapInt_of_fits _ h0 h1]
  rw [max_def]
  split_ifs <;> omega

theorem computeCapacity_relative_default (d : ArrayDeque α) (c : Int)
    (hp : d.growthPolicy = GrowthPolicyRelative) (hf : d.growthFactor = DefaultGrowthFactor)
    (h1 : d.len ≤ 2 ^ 53) :
    computeCapacity d c = max c (2 * d.len) := by
  have h0 : 0 ≤ d.len := by unfold ArrayDeque.len; omega
  have hfl : floatToInt (roundFloat64 (roundFloat64 (d.len : ℚ) *
      roundFloat64 (1 + d.growthFactor))) = 2 * d.len := by
    rw [hf, DefaultGrowthFactor]
    exact relative_double d.len h0 h1
  simp only [computeCapacity, hp, if_true, hfl]
  rw [max_def]
  split_ifs <;> omega

/-- The `float64` nearest to `q`, from the binary exponent `e` of `q` and the integer `f`
nearest to `q / 2^(e - 52)` when it lies below. -/
theorem roundFloat64_of_floor (q : ℚ) (e f : Int) (h0 : (2 : ℚ) ^ e ≤ q)
    (h1 : q < (2 : ℚ) ^ (e + 1)) (he : -1022 ≤ e) (hf : (f : ℚ) ≤ q / 2 ^ (e - 52))
    (hr : q / 2 ^ (e - 52) - f < 1 / 2) : roundFloat64 q = f * 2 ^ (e - 52) := by
  have hq : 0 < q := lt_of_lt_of_le (by positivity) h0
  have hne : ¬ q = 0 := ne_of_gt hq
  have hfl : Rat.floor (q / 2 ^ (e - 52)) = f :=
    (@Int.floor_eq_iff ℚ _ _ _ _).2 ⟨hf, by linarith⟩
  unfold roundFloat64
  rw [if_neg hne, binaryExponent_eq q e h0 h1]
  simp only [max_eq_left he, roundHalfEven, hfl, hr, if_true]

/-- The relative formula on two inputs where `float64` and exact arithmetic differ: length
100 with the factor `0.15` gives 114 (the exact product is 115), and length 10 with the
factor `1e19` gives `-2^63` (the product `1e20` is outside the range of `int`). -/
theorem relative_growth_examples :
    floatToInt (roundFloat64 (roundFloat64 ((100 : Int) : ℚ) *
        roundFloat64 (1 + roundFloat64 (15 / 100)))) = 114 ∧
      floatToInt (roundFloat64 (roundFloat64 ((10 : Int) : ℚ) *
        roundFloat64 (1 + roundFloat64 (10 ^ 19)))) = -2 ^ 63 := by
  constructor
  · have e1 : roundFloat64 (15 / 100) = 5404319552844595 / 2 ^ 55 := by
      have := roundFloat64_of_floor (15 / 100) (-3) 5404319552844595 (by norm_num)
        (by norm_num) (by norm_num) (by norm_num) (by norm_num)
      rw [this]; norm_num
    have e2 : roundFloat64 (1 + 5404319552844595 / 2 ^ 55) = 5179139571476070 / 2 ^ 52 := by
      have := roundFloat64_of_floor (1 + 5404319552844595 / 2 ^ 55) 0 5179139571476070
        (by norm_num) (by norm_num) (by norm_num) (by norm_num) (by norm_num)
      rw [this]; norm_num
    have e3 : roundFloat64 ((100 : ℚ) * (5179139571476070 / 2 ^ 52))
        = 8092405580431359 / 2 ^ 46 := by
      have := roundFloat64_of_floor ((100 : ℚ) * (5179139571476070 / 2 ^ 52)) 6
        8092405580431359 (by norm_num) (by norm_num) (by norm_num) (by norm_num)
        (by norm_num)
      rw [this]; norm_num
    have e4 : Rat.floor ((8092405580431359 : ℚ) / 2 ^ 46) = 114 :=
      (@Int.floor_eq_iff ℚ _ _ _ _).2 ⟨by norm_num, by norm_num⟩
    rw [roundFloat64_intCast 100 (by norm_num) (by norm_num), e1, e2]
    push_cast
    rw [e3]
    have hpos : (0 : ℚ) ≤ 8092405580431359 / 2 ^ 46 := by positivity
    simp only [floatToInt, hpos, if_true, e4]
    norm_num
  · have e1 : roundFloat64 (10 ^ 19) = 10 ^ 19 := by
      have := roundFloat64_of_floor (10 ^ 19) 63 4882812500000000 (by norm_num)
        (by norm_num) (by norm_num) (by norm_num) (by norm_num)
      rw [this]; norm_num
    have e2 : roundFloat64 (1 + 10 ^ 19) = 10 ^ 19 := by
      have := roundFloat64_of_floor (1 + 10 ^ 19) 63 4882812500000000 (by norm_num)
        (by norm_num) (by norm_num) (by norm_num) (by norm_num)
      rw [this]; norm_num
    have e3 : roundFloat64 ((10 : ℚ) * 10 ^ 19) = ((10 ^ 20 : Int) : ℚ) := by
      have := roundFloat64_of_floor ((10 : ℚ) * 10 ^ 19) 66 6103515625000000 (by norm_num)
        (by norm_num) (by norm_num) (by norm_num) (by norm_num)
      rw [this]; norm_num
    have e4 : Rat.floor (((10 ^ 20 : Int) : ℚ)) = 10 ^ 20 := @Int.floor_intCast ℚ _ _ (10 ^ 20)
    rw [roundFloat64_intCast 10 (by norm_num) (by norm_num), e1, e2]
    push_cast
    rw [e3]
    have hpos : (0 : ℚ) ≤ ((10 ^ 20 : Int) : ℚ) := by positivity
    simp only [floatToInt, hpos, if_true, e4]
    norm_num

theorem computeCapacity_relative_examples (d : ArrayDeque α) (c : Int)
    (hp : d.growthPolicy = GrowthPolicyRelative) :
    (d.len = 100 → d.growthFactor = roundFloat64 (15 / 100) →
      computeCapacity d c = max c 114) ∧
    (d.len = 10 → d.growthFactor = roundFloat64 (10 ^ 19) →
      computeCapacity d c = max c (-2 ^ 63)) := by
  constructor
  · intro hl hf
    simp only [computeCapacity, hp, if_true, hl, hf, relative_growth_examples.1]
    rw [max_def]
    split_ifs <;> omega
  · intro hl hf
    simp only [computeCapacity, hp, if_true, hl, hf, relative_growth_examples.2]
    rw [max_def]
    split_ifs <;> omega

theorem wellFormed_maxChunkState : WellFormed maxChunkState := by
  unfold WellFormed
  decide

theorem len_hugeCapacityState : hugeCapacityState.len = 2 ^ 53 + 1 := by
  simp only [ArrayDeque.len, hugeCapacityState, List.length_replicate, hugeCapacity]
  norm_num

theorem wellFormed_hugeCapacityState : WellFormed hugeCapacityState := by
  rw [wellFormed_iff, len_hugeCapacityState]
  simp only [hugeCapacityState]
  norm_num

theorem computeCapacity_hugeCapacityState :
    computeCapacity hugeCapacityState (2 ^ 53 + 2) = 2 ^ 54 := by
  have hfl : floatToInt (roundFloat64 (roundFloat64 (hugeCapacityState.len : ℚ) *
      roundFloat64 (1 + hugeCapacityState.growthFactor))) = 2 ^ 54 := by
    rw [len_hugeCapacityState]
    exact relative_double_tie
  have hp : hugeCapacityState.growthPolicy = GrowthPolicyRelative := rfl
  simp only [computeCapacity, hp, if_true, hfl]
  norm_num

/-- C9 (the claim as stated fails): the growth formulas are computed in 64-bit `int` and in
`float64`, not in exact arithmetic.  (1) After
`d := NewArrayDequeWithCapacityAndChunk(10, math.MaxInt64, intCompare); d.AddLast(1)`
(absolute policy, capacity 10) the sum `10 + growthChunk` wraps around to a negative
number, so `EnsureCapacity(11)` grows the deque to capacity 11, not to
`max(11, 10 + growthChunk)`.  (2) On a deque of capacity `2^53 + 1` with the default
relative policy, `float64(2^53 + 1)` is `2^53`, so `EnsureCapacity(2^53 + 2)` grows the
deque to capacity `2^54`, not to `max(2^53 + 2, 2 * (2^53 + 1))`. -/
theorem EnsureCapacity_result_counterexample :
    (WellFormed maxChunkState ∧ 0 < maxChunkState.size ∧
      maxChunkState.growthPolicy = GrowthPolicyAbsolute ∧ Capacity maxChunkState < 11 ∧
      EnsureCapacity maxChunkState 11 = some (maxChunkGrownState, 11) ∧
      Capacity maxChunkGrownState = 11 ∧
      Capacity maxChunkGrownState
        ≠ max 11 (Capacity maxChunkState + maxChunkState.growthChunk)) ∧
    (WellFormed hugeCapacityState ∧ 0 < hugeCapacityState.size ∧
      hugeCapacityState.growthPolicy = GrowthPolicyRelative ∧
      hugeCapacityState.growthFactor = DefaultGrowthFactor ∧
      Capacity hugeCapacityState < 2 ^ 53 + 2 ∧
      ∃ d' : ArrayDeque Unit,
        EnsureCapacity hugeCapacityState (2 ^ 53 + 2) = some (d', Capacity d') ∧
        Capacity d' = 2 ^ 54 ∧
        Capacity d' ≠ max (2 ^ 53 + 2) (2 * Capacity hugeCapacityState)) := by
  refine ⟨⟨wellFormed_maxChunkState, by decide, rfl, by decide, rfl, rfl, by decide⟩,
    wellFormed_hugeCapacityState, by decide, rfl, rfl, ?_, ?_⟩
  · unfold Capacity
    rw [len_hugeCapacityState]
    norm_num
  · obtain ⟨d', he, -, -, -, -, -, -, -, -, -, -, hgrow⟩ :=
      EnsureCapacity_spec hugeCapacityState (2 ^ 53 + 2) wellFormed_hugeCapacityState
        (Or.inr (Or.inl (by decide)))
    have hlt : hugeCapacityState.len < 2 ^ 53 + 2 := by
      rw [len_hugeCapacityState]; norm_num
    obtain ⟨-, -, hl', -⟩ := hgrow hlt
    rw [computeCapacity_hugeCapacityState] at hl'
    refine ⟨d', he, hl', ?_⟩
    unfold Capacity
    rw [hl', len_hugeCapacityState]
    norm_num

/-- C9 (amended): on a well-formed deque holding at least one element, `EnsureCapacity(min)`
with `min ≤ capacity` changes nothing and returns the current capacity; with
`min > capacity` it returns the new `Capacity()`, which is `max(min, capacity + growthChunk)`
under the absolute policy when `capacity + growthChunk` is in the range of the 64-bit `int`,
and `max(min, 2 * capacity)` under the relative policy with the default factor 1.0 when
`capacity ≤ 2^53`; the size and the logical contents are unchanged. -/
theorem EnsureCapacity_result (d : ArrayDeque α) (min : Int) (hwf : WellFormed d)
    (hpos : 0 < d.size) :
    (min ≤ Capacity d → EnsureCapacity d min = some (d, Capacity d)) ∧
    (Capacity d < min → ∃ d' : ArrayDeque α,
      EnsureCapacity d min = some (d', Capacity d') ∧
      (d.growthPolicy = GrowthPolicyAbsolute →
        -2 ^ 63 ≤ Capacity d + d.growthChunk → Capacity d + d.growthChunk < 2 ^ 63 →
        Capacity d' = max min (Capacity d + d.growthChunk)) ∧
      (d.growthPolicy = GrowthPolicyRelative → d.growthFactor = DefaultGrowthFactor →
        Capacity d ≤ 2 ^ 53 →
        Capacity d' = max min (2 * Capacity d)) ∧
      d'.size = d.size ∧ logical d' = logical d) := by
  constructor
  · intro h
    exact EnsureCapacity_noop d min h
  · intro h
    obtain ⟨d', he, -, hs', hel, -, -, -, -, -, -, -, hgrow⟩ :=
      EnsureCapacity_spec d min hwf (Or.inr (Or.inl hpos))
    obtain ⟨-, -, hl', -⟩ := hgrow h
    refine ⟨d', he, ?_, ?_, hs', logical_ext d d' hs' hel⟩
    · intro hp h0 h1
      unfold Capacity at h0 h1 ⊢
      rw [hl', computeCapacity_absolute d min hp h0 h1]
    · intro hp hf h1
      unfold Capacity at h1 ⊢
      rw [hl', computeCapacity_relative_default d min hp hf h1]

theorem EnsureCapacity_result_witness :
    ((25 : Int) ≤ Capacity wraparoundState →
      EnsureCapacity wraparoundState 25 = some (wraparoundState, Capacity wraparoundState)) ∧
    (Capacity wraparoundState < 25 → ∃ d' : ArrayDeque Int,
      EnsureCapacity wraparoundState 25 = some (d', Capacity d') ∧
      (wraparoundState.growthPolicy = GrowthPolicyAbsolute →
        -2 ^ 63 ≤ Capacity wraparoundState + wraparoundState.growthChunk →
        Capacity wraparoundState + wraparoundState.growthChunk < 2 ^ 63 →
        Capacity d' = max 25 (Capacity wraparoundState + wraparoundState.growthChunk)) ∧
      (wraparoundState.growthPolicy = GrowthPolicyRelative →
        wraparoundState.growthFactor = DefaultGrowthFactor →
        Capacity wraparoundState ≤ 2 ^ 53 →
        Capacity d' = max 25 (2 * Capacity wraparoundState)) ∧
      d'.size = wraparoundState.size ∧ logical d' = logical wraparoundState) :=
  EnsureCapacity_result wraparoundState 25 wellFormed_wraparoundState (by decide)

/-! ## `Get` and `Set` -/

theorem slot_succ (d : ArrayDeque α) (i : Int) (hwf : WellFormed d) (hi0 : 0 ≤ i)
    (hi1 : i + 1 < d.size) :
    (if (d.first + i) % d.len + 1 = d.len then 0 else (d.first + i) % d.len + 1)
      = (d.first + (i + 1)) % d.len := by
  have hwf2 := (wellFormed_iff d).1 hwf
  rw [emod_wrap (d.first + i) d.len (by omega) (by omega),
    emod_wrap (d.first + (i + 1)) d.len (by omega) (by omega)]
  split_ifs <;> omega

theorem index_slot (d : ArrayDeque α) (i : Int) (hwf : WellFormed d) (hi0 : 0 ≤ i)
    (hi1 : i < d.size) : index d.data ((d.first + i) % d.len) = some (elemAt d i) := by
  have hwf2 := (wellFormed_iff d).1 hwf
  have hlen : d.len = d.data.length := rfl
  have hm := emod_wrap (d.first + i) d.len (by omega) (by omega)
  rw [index_some d.data _ (by rw [hm]; split_ifs <;> omega) (by rw [hm]; split_ifs <;> omega)]
  rfl

theorem IndexOf_loop_spec (d : ArrayDeque α) (v : α) (hwf : WellFormed d) (fuel : Nat) :
    ∀ (i idx : Int), 0 ≤ i → i ≤ d.size → d.size - i ≤ fuel →
      (i < d.size → idx = (d.first + i) % d.len) →
      ∃ r : Int, IndexOf.loop d v fuel i idx = some r ∧
        ((r = -1 ∧ ∀ k : Int, i ≤ k → k < d.size → d.compare (elemAt d k) v = false) ∨
         (i ≤ r ∧ r < d.size ∧ d.compare (elemAt d r) v = true ∧
           ∀ k : Int, i ≤ k → k < r → d.compare (elemAt d k) v = false)) := by
  induction fuel with
  | zero =>
    intro i idx hi0 hi1 hf _
    have : ¬ i < d.size := by omega
    refine ⟨-1, ?_, Or.inl ⟨rfl, fun k hk0 hk1 => by omega⟩⟩
    unfold IndexOf.loop
    simp only [this, if_false]
    rfl
  | succ n ih =>
    intro i idx hi0 hi1 hf hidx
    by_cases hlt : i < d.size
    · have hx := index_slot d i hwf hi0 hlt
      rw [← hidx hlt] at hx
      unfold IndexOf.loop
      simp only [hlt, if_true, hx, Option.bind_eq_bind, Option.some_bind]
      by_cases hc : d.compare (elemAt d i) v = true
      · refine ⟨i, ?_, Or.inr ⟨le_refl _, hlt, hc, fun k hk0 hk1 => by omega⟩⟩
        simp only [hc, if_true]
        rfl
      · simp only [hc]
        obtain ⟨r, hr, hspec⟩ := ih (i + 1) (if idx + 1 = d.len then 0 else idx + 1) (by omega)
          (by omega) (by omega) (fun h => by rw [hidx hlt]; exact slot_succ d i hwf hi0 h)
        refine ⟨r, hr, ?_⟩
        have hcf : d.compare (elemAt d i) v = false := by simpa using hc
        rcases hspec with ⟨h1, h2⟩ | ⟨h1, h2, h3, h4⟩
        · refine Or.inl ⟨h1, fun k hk0 hk1 => ?_⟩
          by_cases hki : k = i
          · rw [hki]; exact hcf
          · exact h2 k (by omega) hk1
        · refine Or.inr ⟨by omega, h2, h3, fun k hk0 hk1 => ?_⟩
          by_cases hki : k = i
          · rw [hki]; exact hcf
          · exact h4 k (by omega) hk1
    · refine ⟨-1, ?_, Or.inl ⟨rfl, fun k hk0 hk1 => by omega⟩⟩
      unfold IndexOf.loop
      simp only [hlt, if_false]
      rfl

theorem Contains_loop_spec (d : ArrayDeque α) (v : α) (hwf : WellFormed d) (fuel : Nat) :
    ∀ (i idx : Int), 0 ≤ i → i ≤ d.size → d.size - i ≤ fuel →
      (i < d.size → idx = (d.first + i) % d.len) →
      ∃ b : Bool, Contains.loop d v fuel i idx = some b ∧
        (b = true ↔ ∃ k : Int, i ≤ k ∧ k < d.size ∧ d.compare (elemAt d k) v = true) := by
  induction fuel with
  | zero =>
    intro i idx hi0 hi1 hf _
    have : ¬ i < d.size := by omega
    refine ⟨false, ?_, ?_⟩
    · unfold Contains.loop
      simp only [this, if_false]
      rfl
    · simp only [Bool.false_eq_true, false_iff, not_exists]
      intro k hk; omega
  | succ n ih =>
    intro i idx hi0 hi1 hf hidx
    by_cases hlt : i < d.size
    · have hx := index_slot d i hwf hi0 hlt
      rw [← hidx hlt] at hx
      unfold Contains.loop
      simp only [hlt, if_true, hx, Option.bind_eq_bind, Option.some_bind]
      by_cases hc : d.compare (elemAt d i) v = true
      · refine ⟨true, ?_, ?_⟩
        · simp only [hc, if_true]
          rfl
        · simp only [true_iff]
          exact ⟨i, le_refl _, hlt, hc⟩
      · simp only [hc]
        obtain ⟨b, hb, hspec⟩ := ih (i + 1) (if idx + 1 = d.len then 0 else idx + 1) (by omega)
          (by omega) (by omega) (fun h => by rw [hidx hlt]; exact slot_succ d i hwf hi0 h)
        refine ⟨b, hb, ?_⟩
        rw [hspec]
        constructor
        · rintro ⟨k, hk0, hk1, hk2⟩
          exact ⟨k, by omega, hk1, hk2⟩
        · rintro ⟨k, hk0, hk1, hk2⟩
          by_cases hki : k = i
          · rw [hki] at hk2; exact absurd hk2 hc
          · exact ⟨k, by omega, hk1, hk2⟩
    · refine ⟨false, ?_, ?_⟩
      · unfold Contains.loop
        simp only [hlt, if_false]
        rfl
      · simp only [Bool.false_eq_true, false_iff, not_exists]
        intro k hk; omega

theorem slot_pred (d : ArrayDeque α) (i : Int) (hwf : WellFormed d) (hi0 : 0 ≤ i - 1)
    (hi1 : i < d.size) :
    (if (d.first + i) % d.len - 1 < 0 then d.len - 1 else (d.first + i) % d.len - 1)
      = (d.first + (i - 1)) % d.len := by
  have hwf2 := (wellFormed_iff d).1 hwf
  rw [emod_wrap (d.first + i) d.len (by omega) (by omega),
    emod_wrap (d.first + (i - 1)) d.len (by omega) (by omega)]
  split_ifs <;> omega

theorem LastIndexOf_loop_spec (d : ArrayDeque α) (v : α) (hwf : WellFormed d) (fuel : Nat) :
    ∀ (i idx : Int), -1 ≤ i → i < d.size → i + 1 ≤ fuel →
      (0 ≤ i → (if idx < 0 then d.len - 1 else idx) = (d.first + i) % d.len) →
      ∃ r : Int, LastIndexOf.loop d v fuel i idx = some r ∧
        ((r = -1 ∧ ∀ k : Int, 0 ≤ k → k ≤ i → d.compare (elemAt d k) v = false) ∨
         (0 ≤ r ∧ r ≤ i ∧ d.compare (elemAt d r) v = true ∧
           ∀ k : Int, r < k → k ≤ i → d.compare (elemAt d k) v = false)) := by
  induction fuel with
  | zero =>
    intro i idx hi0 hi1 hf _
    have : ¬ i ≥ 0 := by omega
    refine ⟨-1, ?_, Or.inl ⟨rfl, fun k hk0 hk1 => by omega⟩⟩
    unfold LastIndexOf.loop
    simp only [this, if_false]
    rfl
  | succ n ih =>
    intro i idx hi0 hi1 hf hidx
    by_cases hge : i ≥ 0
    · have hx := index_slot d i hwf hge hi1
      rw [← hidx hge] at hx
      unfold LastIndexOf.loop
      simp only [hge, if_true, hx, Option.bind_eq_bind, Option.some_bind]
      by_cases hc : d.compare (elemAt d i) v = true
      · refine ⟨i, ?_, Or.inr ⟨hge, le_refl _, hc, fun k hk0 hk1 => by omega⟩⟩
        simp only [hc, if_true]
        rfl
      · simp only [hc]
        obtain ⟨r, hr, hspec⟩ := ih (i - 1) ((if idx < 0 then d.len - 1 else idx) - 1) (by omega)
          (by omega) (by omega) (fun h => by rw [hidx hge]; exact slot_pred d i hwf h hi1)
        refine ⟨r, hr, ?_⟩
        have hcf : d.compare (elemAt d i) v = false := by simpa using hc
        rcases hspec with ⟨h1, h2⟩ | ⟨h1, h2, h3, h4⟩
        · refine Or.inl ⟨h1, fun k hk0 hk1 => ?_⟩
          by_cases hki : k = i
          · rw [hki]; exact hcf
          · exact h2 k hk0 (by omega)
        · refine Or.inr ⟨h1, by omega, h3, fun k hk0 hk1 => ?_⟩
          by_cases hki : k = i
          · rw [hki]; exact hcf
          · exact h4 k hk0 (by omega)
    · refine ⟨-1, ?_, Or.inl ⟨rfl, fun k hk0 hk1 => by omega⟩⟩
      unfold LastIndexOf.loop
      simp only [hge, if_false]
      rfl

theorem IndexOf_spec (d : ArrayDeque α) (v : α) (hwf : WellFormed d) :
    ∃ r : Int, IndexOf d v = some r ∧
      ((r = -1 ∧ ∀ k : Int, 0 ≤ k → k < d.size → d.compare (elemAt d k) v = false) ∨
       (0 ≤ r ∧ r < d.size ∧ d.compare (elemAt d r) v = true ∧
         ∀ k : Int, 0 ≤ k → k < r → d.compare (elemAt d k) v = false)) := by
  have hwf2 := (wellFormed_iff d).1 hwf
  exact IndexOf_loop_spec d v hwf d.size.toNat 0 d.first (le_refl _) (by omega) (by omega)
    (fun h => by rw [emod_wrap _ _ (by omega) (by omega)]; split_ifs <;> omega)

theorem LastIndexOf_spec (d : ArrayDeque α) (v : α) (hwf : WellFormed d) :
    ∃ r : Int, LastIndexOf d v = some r ∧
      ((r = -1 ∧ ∀ k : Int, 0 ≤ k → k < d.size → d.compare (elemAt d k) v = false) ∨
       (0 ≤ r ∧ r < d.size ∧ d.compare (elemAt d r) v = true ∧
         ∀ k : Int, r < k → k < d.size → d.compare (elemAt d k) v = false)) := by
  have hwf2 := (wellFormed_iff d).1 hwf
  obtain ⟨r, hr, hspec⟩ := LastIndexOf_loop_spec d v hwf d.size.toNat (d.size - 1) (d.last - 1)
    (by omega) (by omega) (by omega)
    (fun h => by rw [emod_wrap _ _ (by omega) (by omega)]; split_ifs <;> omega)
  refine ⟨r, hr, ?_⟩
  rcases hspec with ⟨h1, h2⟩ | ⟨h1, h2, h3, h4⟩
  · exact Or.inl ⟨h1, fun k hk0 hk1 => h2 k hk0 (by omega)⟩
  · exact Or.inr ⟨h1, by omega, h3, fun k hk0 hk1 => h4 k hk0 (by omega)⟩

theorem Contains_spec (d : ArrayDeque α) (v : α) (hwf : WellFormed d) :
    ∃ b : Bool, Contains d v = some b ∧
      (b = true ↔ ∃ k : Int, 0 ≤ k ∧ k < d.size ∧ d.compare (elemAt d k) v = true) := by
  have hwf2 := (wellFormed_iff d).1 hwf
  exact Contains_loop_spec d v hwf d.size.toNat 0 d.first (le_refl _) (by omega) (by omega)
    (fun h => by rw [emod_wrap _ _ (by omega) (by omega)]; split_ifs <;> omega)

/-- C11: on a well-formed deque, with `match(k)` standing for
`compare(element at logical index k, v)`: `IndexOf(v)` returns the least `k` in `[0, size)`
with `match(k)`, `LastIndexOf(v)` the greatest, each returns `-1` exactly when no index
matches, and `Contains(v)` is true exactly when some index matches.  The three loops finish
without a panic in every layout, wrapped ones included; they only read the receiver (the
embedding returns no new state for them). -/
theorem search_results (d : ArrayDeque α) (v : α) (hwf : WellFormed d) :
    (∃ r : Int, IndexOf d v = some r ∧
      (r = -1 ↔ ∀ k : Int, 0 ≤ k → k < d.size → d.compare (elemAt d k) v = false) ∧
      (r ≠ -1 → 0 ≤ r ∧ r < d.size ∧ d.compare (elemAt d r) v = true ∧
        ∀ k : Int, 0 ≤ k → k < r → d.compare (elemAt d k) v = false)) ∧
    (∃ r : Int, LastIndexOf d v = some r ∧
      (r = -1 ↔ ∀ k : Int, 0 ≤ k → k < d.size → d.compare (elemAt d k) v = false) ∧
      (r ≠ -1 → 0 ≤ r ∧ r < d.size ∧ d.compare (elemAt d r) v = true ∧
        ∀ k : Int, r < k → k < d.size → d.compare (elemAt d k) v = false)) ∧
    (∃ b : Bool, Contains d v = some b ∧
      (b = true ↔ ∃ k : Int, 0 ≤ k ∧ k < d.size ∧ d.compare (elemAt d k) v = true)) := by
  refine ⟨?_, ?_, Contains_spec d v hwf⟩
  · obtain ⟨r, hr, hspec⟩ := IndexOf_spec d v hwf
    refine ⟨r, hr, ?_, ?_⟩
    · rcases hspec with ⟨h1, h2⟩ | ⟨h1, h2, h3, -⟩
      · exact ⟨fun _ => h2, fun _ => h1⟩
      · constructor
        · intro h; omega
        · intro h
          rw [h r h1 h2] at h3
          exact absurd h3 (by simp)
    · intro hne
      rcases hspec with ⟨h1, -⟩ | h
      · exact absurd h1 hne
      · exact h
  · obtain ⟨r, hr, hspec⟩ := LastIndexOf_spec d v hwf
    refine ⟨r, hr, ?_, ?_⟩
    · rcases hspec with ⟨h1, h2⟩ | ⟨h1, h2, h3, -⟩
      · exact ⟨fun _ => h2, fun _ => h1⟩
      · constructor
        · intro h; omega
        · intro h
          rw [h r h1 h2] at h3
          exact absurd h3 (by simp)
    · intro hne
      rcases hspec with ⟨h1, -⟩ | h
      · exact absurd h1 hne
      · exact h

theorem search_results_witness :
    (∃ r : Int, IndexOf wraparoundState 5 = some r ∧
      (r = -1 ↔ ∀ k : Int, 0 ≤ k → k < wraparoundState.size →
        wraparoundState.compare (elemAt wraparoundState k) 5 = false) ∧
      (r ≠ -1 → 0 ≤ r ∧ r < wraparoundState.size ∧
        wraparoundState.compare (elemAt wraparoundState r) 5 = true ∧
        ∀ k : Int, 0 ≤ k → k < r →
          wraparoundState.compare (elemAt wraparoundState k) 5 = false)) ∧
    (∃ r : Int, LastIndexOf wraparoundState 5 = some r ∧
      (r = -1 ↔ ∀ k : Int, 0 ≤ k → k < wraparoundState.size →
        wraparoundState.compare (elemAt wraparoundState k) 5 = false) ∧
      (r ≠ -1 → 0 ≤ r ∧ r < wraparoundState.size ∧
        wraparoundState.compare (elemAt wraparoundState r) 5 = true ∧
        ∀ k : Int, r < k → k < wraparoundState.size →
          wraparoundState.compare (elemAt wraparoundState k) 5 = false)) ∧
    (∃ b : Bool, Contains wraparoundState 5 = some b ∧
      (b = true ↔ ∃ k : Int, 0 ≤ k ∧ k < wraparoundState.size ∧
        wraparoundState.compare (elemAt wraparoundState k) 5 = true)) :=
  search_results wraparoundState 5 wellFormed_wraparoundState

/-! ## Removal by value -/

theorem RemoveElementAt_logical (d : ArrayDeque α) (i : Int) (hwf : WellFormed d)
    (hi0 : 0 ≤ i) (hi1 : i < d.size) :
    ∃ d' : ArrayDeque α, RemoveElementAt d i = some (d', (elemAt d i, none)) ∧
      WellFormed d' ∧ d'.size = d.size - 1 ∧ d'.len = d.len ∧
      logical d' = (logical d).eraseIdx i.toNat := by
  obtain ⟨d', hr, hwf', hs', hl', hlo, hhi⟩ := RemoveElementAt_spec d i hwf hi0 hi1
  refine ⟨d', hr, hwf', hs', hl', ?_⟩
  apply logical_eq_of_getElem
  · have : i.toNat < (logical d).length := by rw [logical_length]; omega
    rw [List.length_eraseIdx_of_lt this, logical_length]
    omega
  · intro k hk
    rw [List.getElem?_eraseIdx, logical_getElem_opt, logical_getElem_opt]
    by_cases h1 : k < i.toNat
    · rw [if_pos h1, if_pos (by omega), hlo k (by omega) (by omega)]
    · rw [if_neg h1, if_pos (by omega), hhi k (by omega) (by omega)]
      rfl

/-- C12: on a well-formed deque, `Remove(v)` returns normally; it returns true exactly when
some live element matches `v` under the comparison function, and then the element at the least
matching logical index is the one removed (the contents lose exactly that position, the size
decreases by one); otherwise it returns false and the deque is unchanged. -/
theorem Remove_first_match (d : ArrayDeque α) (v : α) (hwf : WellFormed d) :
    ∃ (d' : ArrayDeque α) (b : Bool), Remove d v = some (d', b) ∧
      (b = true ↔ ∃ k : Int, 0 ≤ k ∧ k < d.size ∧ d.compare (elemAt d k) v = true) ∧
      (b = true → ∃ r : Int, 0 ≤ r ∧ r < d.size ∧ d.compare (elemAt d r) v = true ∧
        (∀ k : Int, 0 ≤ k → k < r → d.compare (elemAt d k) v = false) ∧
        logical d' = (logical d).eraseIdx r.toNat ∧ d'.size = d.size - 1) ∧
      (b = false → d' = d) := by
  obtain ⟨r, hr, hspec⟩ := IndexOf_spec d v hwf
  rcases hspec with ⟨h1, h2⟩ | ⟨h1, h2, h3, h4⟩
  · refine ⟨d, false, ?_, ?_, ?_, fun _ => rfl⟩
    · simp only [Remove, hr, h1, Option.bind_eq_bind, Option.some_bind, ne_eq, not_true_eq_false,
        if_false]
      rfl
    · simp only [Bool.false_eq_true, false_iff, not_exists, not_and]
      intro k hk0 hk1
      rw [h2 k hk0 hk1]
      simp
    · intro h; exact absurd h (by simp)
  · obtain ⟨d', hrm, -, hs', -, hlog⟩ := RemoveElementAt_logical d r hwf h1 h2
    have hne : r ≠ -1 := by omega
    refine ⟨d', true, ?_, ?_, ?_, ?_⟩
    · simp only [Remove, hr, Option.bind_eq_bind, Option.some_bind, hne, ne_eq, not_false_eq_true,
        if_true, hrm]
      rfl
    · simp only [true_iff]
      exact ⟨r, h1, h2, h3⟩
    · intro _
      exact ⟨r, h1, h2, h3, h4, hlog, hs'⟩
    · intro h; exact absurd h (by simp)

theorem Remove_first_match_witness :
    ∃ (d' : ArrayDeque Int) (b : Bool), Remove wraparoundState 5 = some (d', b) ∧
      (b = true ↔ ∃ k : Int, 0 ≤ k ∧ k < wraparoundState.size ∧
        wraparoundState.compare (elemAt wraparoundState k) 5 = true) ∧
      (b = true → ∃ r : Int, 0 ≤ r ∧ r < wraparoundState.size ∧
        wraparoundState.compare (elemAt wraparoundState r) 5 = true ∧
        (∀ k : Int, 0 ≤ k → k < r →
          wraparoundState.compare (elemAt wraparoundState k) 5 = false) ∧
        logical d' = (logical wraparoundState).eraseIdx r.toNat ∧
        d'.size = wraparoundState.size - 1) ∧
      (b = false → d' = wraparoundState) :=
  Remove_first_match wraparoundState 5 wellFormed_wraparoundState

/-! ## The error results -/

theorem Set_out_of_range (d : ArrayDeque α) (i : Int) (v : α) (h : i < 0 ∨ i ≥ d.size) :
    Set d i v = some (d, (default, some (DequeError.indexOutOfBounds i))) := by
  simp only [Set, h, if_true]
  rfl

theorem RemoveFirst_empty (d : ArrayDeque α) (h : d.size = 0) :
    RemoveFirst d = some (d, (default, some DequeError.dequeIsEmpty)) := by
  simp only [RemoveFirst, h, if_true]
  rfl

theorem RemoveLast_empty (d : ArrayDeque α) (h : d.size = 0) :
    RemoveLast d = some (d, (default, some DequeError.dequeIsEmpty)) := by
  simp only [RemoveLast, h, if_true]
  rfl

theorem RemoveElementAt_out_of_range (d : ArrayDeque α) (i : Int) (hs : 0 ≤ d.size)
    (h : i < 0 ∨ i ≥ d.size) :
    ∃ e : DequeError, RemoveElementAt d i = some (d, (default, some e)) := by
  by_cases h0 : i = 0
  · refine ⟨DequeError.dequeIsEmpty, ?_⟩
    unfold RemoveElementAt
    rw [if_pos h0]
    exact RemoveFirst_empty d (by omega)
  · by_cases h1 : i = d.size - 1
    · refine ⟨DequeError.dequeIsEmpty, ?_⟩
      unfold RemoveElementAt
      rw [if_neg h0, if_pos h1]
      exact RemoveLast_empty d (by omega)
    · refine ⟨DequeError.indexOutOfBounds i, ?_⟩
      unfold RemoveElementAt
      rw [if_neg h0, if_neg h1, if_pos h]
      rfl

theorem Add_out_of_range (d : ArrayDeque α) (i : Int) (v : α) (hs : 0 ≤ d.size)
    (h : i < 0 ∨ i > d.size) : Add d i v = none := by
  have h0 : ¬ i = 0 := by omega
  have h1 : ¬ i = d.size := by omega
  simp only [Add, h0, h1, h, if_false, if_true]

theorem GetFirst_spec (d : ArrayDeque α) (hwf : WellFormed d) (hpos : 0 < d.size) :
    GetFirst d = some (elemAt d 0, none) := by
  have hwf2 := (wellFormed_iff d).1 hwf
  have hs : ¬ d.size = 0 := by omega
  have hx := index_slot d 0 hwf (le_refl _) hpos
  rw [emod_wrap _ _ (by omega) (by omega), if_pos (by omega), add_zero] at hx
  simp only [GetFirst, hs, if_false, hx, Option.bind_eq_bind, Option.some_bind]
  rfl

theorem GetLast_spec (d : ArrayDeque α) (hwf : WellFormed d) (hpos : 0 < d.size) :
    GetLast d = some (elemAt d (d.size - 1), none) := by
  have hwf2 := (wellFormed_iff d).1 hwf
  have hs : ¬ d.size = 0 := by omega
  have hx := index_slot d (d.size - 1) hwf (by omega) (by omega)
  rw [emod_wrap _ _ (by omega) (by omega)] at hx
  by_cases hl : d.last = 0
  · have : (if d.first + (d.size - 1) < d.len then d.first + (d.size - 1)
        else d.first + (d.size - 1) - d.len) = d.len - 1 := by split_ifs <;> omega
    rw [this] at hx
    simp only [GetLast, hs, if_false, hl, if_true, hx, Option.bind_eq_bind, Option.some_bind]
    rfl
  · have : (if d.first + (d.size - 1) < d.len then d.first + (d.size - 1)
        else d.first + (d.size - 1) - d.len) = d.last - 1 := by split_ifs <;> omega
    rw [this] at hx
    simp only [GetLast, hs, if_false, hl, hx, Option.bind_eq_bind, Option.some_bind]
    rfl

/-- C15: on a well-formed deque, `GetFirst`, `GetLast`, `RemoveFirst` and `RemoveLast` return
normally, with an error exactly when `size = 0`, and a removal that returns an error leaves
the deque it was given; with `size > 0`, `GetFirst` returns the element at logical index 0
and `GetLast` the element at logical index `size - 1`, whatever `last` is (`last = 0`
included).  The two peeks only read the receiver. -/
theorem end_errors (d : ArrayDeque α) (hwf : WellFormed d) :
    (∃ (x : α) (e : Option DequeError), GetFirst d = some (x, e) ∧
      (e.isSome = true ↔ d.size = 0) ∧ (0 < d.size → x = elemAt d 0)) ∧
    (∃ (x : α) (e : Option DequeError), GetLast d = some (x, e) ∧
      (e.isSome = true ↔ d.size = 0) ∧ (0 < d.size → x = elemAt d (d.size - 1))) ∧
    (∃ (d' : ArrayDeque α) (x : α) (e : Option DequeError), RemoveFirst d = some (d', (x, e)) ∧
      (e.isSome = true ↔ d.size = 0) ∧ (e.isSome = true → d' = d)) ∧
    (∃ (d' : ArrayDeque α) (x : α) (e : Option DequeError), RemoveLast d = some (d', (x, e)) ∧
      (e.isSome = true ↔ d.size = 0) ∧ (e.isSome = true → d' = d)) := by
  have hwf2 := (wellFormed_iff d).1 hwf
  by_cases hs : d.size = 0
  · refine ⟨⟨default, some DequeError.dequeIsEmpty, ?_, by simp [hs], fun h => by omega⟩,
      ⟨default, some DequeError.dequeIsEmpty, ?_, by simp [hs], fun h => by omega⟩,
      ⟨_, _, _, RemoveFirst_empty d hs, by simp [hs], fun _ => rfl⟩,
      ⟨_, _, _, RemoveLast_empty d hs, by simp [hs], fun _ => rfl⟩⟩
    · simp only [GetFirst, hs, if_true]
      rfl
    · simp only [GetLast, hs, if_true]
      rfl
  · have hpos : 0 < d.size := by omega
    obtain ⟨d1, h1, -⟩ := RemoveFirst_spec d hwf hpos
    obtain ⟨d2, h2, -⟩ := RemoveLast_spec d hwf hpos
    exact ⟨⟨_, _, GetFirst_spec d hwf hpos, by simp [hs], fun _ => rfl⟩,
      ⟨_, _, GetLast_spec d hwf hpos, by simp [hs], fun _ => rfl⟩,
      ⟨_, _, _, h1, by simp [hs], fun he => by simp at he⟩,
      ⟨_, _, _, h2, by simp [hs], fun he => by simp at he⟩⟩

theorem end_errors_witness :
    (∃ (x : Int) (e : Option DequeError), GetFirst wraparoundState = some (x, e) ∧
      (e.isSome = true ↔ wraparoundState.size = 0) ∧
      (0 < wraparoundState.size → x = elemAt wraparoundState 0)) ∧
    (∃ (x : Int) (e : Option DequeError), GetLast wraparoundState = some (x, e) ∧
      (e.isSome = true ↔ wraparoundState.size = 0) ∧
      (0 < wraparoundState.size → x = elemAt wraparoundState (wraparoundState.size - 1))) ∧
    (∃ (d' : ArrayDeque Int) (x : Int) (e : Option DequeError),
      RemoveFirst wraparoundState = some (d', (x, e)) ∧
      (e.isSome = true ↔ wraparoundState.size = 0) ∧ (e.isSome = true → d' = wraparoundState)) ∧
    (∃ (d' : ArrayDeque Int) (x : Int) (e : Option DequeError),
      RemoveLast wraparoundState = some (d', (x, e)) ∧
      (e.isSome = true ↔ wraparoundState.size = 0) ∧ (e.isSome = true → d' = wraparoundState)) :=
  end_errors wraparoundState wellFormed_wraparoundState

/-! ## Capacity is a frame of removals and of insertions that fit -/

/-- C17: `NewArrayDequeWithParams(capacity, policy, growthFactor, growthChunk, compare)`
panics (it has no error result) exactly when `capacity < 0`, `growthFactor < 0` or
`growthChunk < 0`; otherwise it returns an empty deque (`Size() = 0`, `IsEmpty()` true) whose
`Capacity()` is the requested capacity.  `NewArrayDeque(compare)` returns an empty deque of
capacity 10. -/
theorem constructor_validation (capacity growthPolicy : Int) (growthFactor : ℚ)
    (growthChunk : Int) (compare : α → α → Bool) :
    ((NewArrayDequeWithParams capacity growthPolicy growthFactor growthChunk compare
        : Option (ArrayDeque α)) = none ↔
      (capacity < 0 ∨ growthFactor < 0 ∨ growthChunk < 0)) ∧
    (¬ (capacity < 0 ∨ growthFactor < 0 ∨ growthChunk < 0) →
      ∃ d : ArrayDeque α,
        NewArrayDequeWithParams capacity growthPolicy growthFactor growthChunk compare = some d ∧
        Size d = 0 ∧ IsEmpty d = true ∧ Capacity d = capacity) ∧
    (∃ d : ArrayDeque α, NewArrayDeque compare = some d ∧ Size d = 0 ∧ IsEmpty d = true ∧
      Capacity d = 10) := by
  have key : ∀ (c p : Int) (f : ℚ) (g : Int), ¬ (c < 0 ∨ f < 0 ∨ g < 0) →
      ∃ d : ArrayDeque α, NewArrayDequeWithParams c p f g compare = some d ∧
        Size d = 0 ∧ IsEmpty d = true ∧ Capacity d = c := by
    intro c p f g h
    have h1 : ¬ c < 0 := fun h' => h (Or.inl h')
    have h2 : ¬ f < 0 := fun h' => h (Or.inr (Or.inl h'))
    have h3 : ¬ g < 0 := fun h' => h (Or.inr (Or.inr h'))
    refine ⟨{ data := List.replicate c.toNat default, size := 0, first := 0, last := 0,
              growthPolicy := p, growthFactor := f, growthChunk := g, compare := compare },
      ?_, rfl, rfl, ?_⟩
    · simp only [NewArrayDequeWithParams, h1, h2, h3, if_false, make_some c (by omega),
        Option.bind_eq_bind, Option.some_bind]
      rfl
    · simp only [Capacity, ArrayDeque.len, List.length_replicate]
      omega
  refine ⟨?_, key capacity growthPolicy growthFactor growthChunk, ?_⟩
  · constructor
    · intro hn
      by_contra h
      obtain ⟨d, hd, -⟩ := key capacity growthPolicy growthFactor growthChunk h
      rw [hn] at hd
      exact absurd hd (by simp)
    · intro h
      unfold NewArrayDequeWithParams
      rcases h with h | h | h
      · rw [if_pos h]
      · by_cases h1 : capacity < 0
        · rw [if_pos h1]
        · rw [if_neg h1, if_pos h]
      · by_cases h1 : capacity < 0
        · rw [if_pos h1]
        · by_cases h2 : growthFactor < 0
          · rw [if_neg h1, if_pos h2]
          · rw [if_neg h1, if_neg h2, if_pos h]
  · exact key DefaultCapacity GrowthPolicyRelative DefaultGrowthFactor DefaultGrowthChunk
      (by simp [DefaultCapacity, DefaultGrowthFactor, DefaultGrowthChunk])

theorem constructor_validation_witness :
    ((NewArrayDequeWithParams 4 GrowthPolicyAbsolute 1 3 intCompare
        : Option (ArrayDeque Int)) = none ↔
      ((4 : Int) < 0 ∨ (1 : ℚ) < 0 ∨ (3 : Int) < 0)) ∧
    (¬ ((4 : Int) < 0 ∨ (1 : ℚ) < 0 ∨ (3 : Int) < 0) →
      ∃ d : ArrayDeque Int,
        NewArrayDequeWithParams 4 GrowthPolicyAbsolute 1 3 intCompare = some d ∧
        Size d = 0 ∧ IsEmpty d = true ∧ Capacity d = 4) ∧
    (∃ d : ArrayDeque Int, NewArrayDeque intCompare = some d ∧ Size d = 0 ∧
      IsEmpty d = true ∧ Capacity d = 10) :=
  constructor_validation 4 GrowthPolicyAbsolute 1 3 intCompare

/-! ## The representation invariant -/

theorem len_nonneg (d : ArrayDeque α) : 0 ≤ d.len := by
  simp only [ArrayDeque.len]; omega

theorem Invariant.of_wellFormed (d : ArrayDeque α) (h : WellFormed d) : Invariant d := by
  obtain ⟨h1, h2, h3⟩ := h
  refine ⟨h1, h2, fun hpos => ?_⟩
  rcases h3 with h3 | h3
  · exact h3
  · omega

theorem Invariant.cases (d : ArrayDeque α) (h : Invariant d) :
    WellFormed d ∨ (d.len = 0 ∧ d.size = 0) := by
  obtain ⟨h1, h2, h3⟩ := h
  have := len_nonneg d
  by_cases hpos : 0 < d.len
  · exact Or.inl ⟨h1, h2, Or.inl (h3 hpos)⟩
  · exact Or.inr ⟨by omega, by omega⟩

theorem EnsureCapacity_grow_inv (d d' : ArrayDeque α) (c n : Int) (hs0 : 0 ≤ d.size)
    (hs1 : d.size ≤ d.len) (hc : d.len < c) (h : EnsureCapacity d c = some (d', n)) :
    WellFormed d' ∧ d'.size = d.size ∧ c ≤ d'.len := by
  have hcc := computeCapacity_ge d c
  have hgt : c > d.len := by omega
  simp only [EnsureCapacity, hgt, if_true, make_some _ (by omega : 0 ≤ computeCapacity d c),
    Option.bind_eq_bind, Option.some_bind, Option.bind_eq_some] at h
  obtain ⟨r, hr, h2⟩ := h
  simp only [Option.pure_def, Option.some.injEq, Prod.mk.injEq] at h2
  have hl := toArray_length _ _ _ hr
  rw [List.length_replicate] at hl
  have hlen : d.len = d.data.length := rfl
  refine ⟨?_, by rw [← h2.1], ?_⟩
  · rw [← h2.1, wellFormed_iff]
    simp only [ArrayDeque.len, hl]
    omega
  · rw [← h2.1]
    simp only [ArrayDeque.len, hl]
    omega

theorem EnsureCapacity_invariant (d d' : ArrayDeque α) (c n : Int) (hinv : Invariant d)
    (h : EnsureCapacity d c = some (d', n)) : Invariant d' := by
  by_cases hc : c ≤ d.len
  · rw [EnsureCapacity_noop d c hc] at h
    simp only [Option.some.injEq, Prod.mk.injEq] at h
    rw [← h.1]; exact hinv
  · exact Invariant.of_wellFormed d'
      (EnsureCapacity_grow_inv d d' c n hinv.1 hinv.2.1 (by omega) h).1

theorem AddFirst_after_EnsureCapacity (d d1 : ArrayDeque α) (v : α) (n : Int)
    (he : EnsureCapacity d (d.size + 1) = some (d1, n)) (hroom : d1.size + 1 ≤ d1.len) :
    AddFirst d v = AddFirst d1 v := by
  have he1 := EnsureCapacity_noop d1 (d1.size + 1) hroom
  simp only [AddFirst, he, he1, Option.bind_eq_bind, Option.some_bind]

theorem AddLast_after_EnsureCapacity (d d1 : ArrayDeque α) (v : α) (n : Int)
    (he : EnsureCapacity d (d.size + 1) = some (d1, n)) (hroom : d1.size + 1 ≤ d1.len) :
    AddLast d v = AddLast d1 v := by
  have he1 := EnsureCapacity_noop d1 (d1.size + 1) hroom
  simp only [AddLast, he, he1, Option.bind_eq_bind, Option.some_bind]

theorem AddFirst_invariant (d d' : ArrayDeque α) (v : α) (hinv : Invariant d)
    (h : AddFirst d v = some d') : Invariant d' := by
  rcases Invariant.cases d hinv with hwf | ⟨hl, hs⟩
  · exact Invariant.of_wellFormed d' (AddFirst_preserves d d' v hwf h)
  · cases he : EnsureCapacity d (d.size + 1) with
    | none => simp [AddFirst, he] at h
    | some p =>
      obtain ⟨d1, n⟩ := p
      obtain ⟨hwf1, hs1, hc1⟩ := EnsureCapacity_grow_inv d d1 (d.size + 1) n hinv.1 hinv.2.1
        (by omega) he
      rw [AddFirst_after_EnsureCapacity d d1 v n he (by omega)] at h
      exact Invariant.of_wellFormed d' (AddFirst_preserves d1 d' v hwf1 h)

theorem AddLast_invariant (d d' : ArrayDeque α) (v : α) (hinv : Invariant d)
    (h : AddLast d v = some d') : Invariant d' := by
  rcases Invariant.cases d hinv with hwf | ⟨hl, hs⟩
  · exact Invariant.of_wellFormed d' (AddLast_preserves d d' v hwf h)
  · cases he : EnsureCapacity d (d.size + 1) with
    | none => simp [AddLast, he] at h
    | some p =>
      obtain ⟨d1, n⟩ := p
      obtain ⟨hwf1, hs1, hc1⟩ := EnsureCapacity_grow_inv d d1 (d.size + 1) n hinv.1 hinv.2.1
        (by omega) he
      rw [AddLast_after_EnsureCapacity d d1 v n he (by omega)] at h
      exact Invariant.of_wellFormed d' (AddLast_preserves d1 d' v hwf1 h)

theorem Add_invariant (d d' : ArrayDeque α) (i : Int) (v : α) (hinv : Invariant d)
    (h : Add d i v = some d') : Invariant d' := by
  rcases Invariant.cases d hinv with hwf | ⟨hl, hs⟩
  · exact Invariant.of_wellFormed d' (Add_preserves d d' i v hwf h)
  · by_cases h0 : i = 0
    · simp only [Add, h0, if_true] at h
      exact AddFirst_invariant d d' v hinv h
    · rw [Add_out_of_range d i v hinv.1 (by omega)] at h
      exact absurd h (by simp)

theorem RemoveFirst_invariant (d d' : ArrayDeque α) (r : α × Option DequeError)
    (hinv : Invariant d) (h : RemoveFirst d = some (d', r)) : Invariant d' := by
  rcases Invariant.cases d hinv with hwf | ⟨hl, hs⟩
  · exact Invariant.of_wellFormed d' (RemoveFirst_preserves d d' r hwf h)
  · rw [RemoveFirst_empty d hs] at h
    simp only [Option.some.injEq, Prod.mk.injEq] at h
    rw [← h.1]; exact hinv

theorem RemoveLast_invariant (d d' : ArrayDeque α) (r : α × Option DequeError)
    (hinv : Invariant d) (h : RemoveLast d = some (d', r)) : Invariant d' := by
  rcases Invariant.cases d hinv with hwf | ⟨hl, hs⟩
  · exact Invariant.of_wellFormed d' (RemoveLast_preserves d d' r hwf h)
  · rw [RemoveLast_empty d hs] at h
    simp only [Option.some.injEq, Prod.mk.injEq] at h
    rw [← h.1]; exact hinv

theorem RemoveElementAt_invariant (d d' : ArrayDeque α) (i : Int) (r : α × Option DequeError)
    (hinv : Invariant d) (h : RemoveElementAt d i = some (d', r)) : Invariant d' := by
  rcases Invariant.cases d hinv with hwf | ⟨hl, hs⟩
  · exact Invariant.of_wellFormed d' (RemoveElementAt_preserves d d' i r hwf h)
  · obtain ⟨e, he⟩ := RemoveElementAt_out_of_range d i hinv.1 (by omega)
    rw [he] at h
    simp only [Option.some.injEq, Prod.mk.injEq] at h
    rw [← h.1]; exact hinv

theorem Set_invariant (d d' : ArrayDeque α) (i : Int) (v : α) (r : α × Option DequeError)
    (hinv : Invariant d) (h : Set d i v = some (d', r)) : Invariant d' := by
  rcases Invariant.cases d hinv with hwf | ⟨hl, hs⟩
  · exact Invariant.of_wellFormed d' (Set_preserves d d' i v r hwf h)
  · rw [Set_out_of_range d i v (by omega)] at h
    simp only [Option.some.injEq, Prod.mk.injEq] at h
    rw [← h.1]; exact hinv

theorem TrimToSize_invariant (d d' : ArrayDeque α) (hinv : Invariant d)
    (h : TrimToSize d = some d') : Invariant d' := by
  rcases Invariant.cases d hinv with hwf | ⟨hl, hs⟩
  · exact Invariant.of_wellFormed d' (TrimToSize_preserves d d' hwf h)
  · have : ¬ d.len > d.size := by omega
    simp only [TrimToSize, this, if_false, Option.pure_def, Option.some.injEq] at h
    rw [← h]; exact hinv

theorem Remove_invariant (d d' : ArrayDeque α) (v : α) (b : Bool) (hinv : Invariant d)
    (h : Remove d v = some (d', b)) : Invariant d' := by
  unfold Remove at h
  simp only [Option.bind_eq_bind, Option.bind_eq_some] at h
  obtain ⟨idx, -, h2⟩ := h
  split_ifs at h2 with h3
  · simp only [Option.bind_eq_some, Option.pure_def, Option.some.injEq, Prod.mk.injEq] at h2
    obtain ⟨⟨d1, r⟩, hr, h4, -⟩ := h2
    rw [← h4]
    exact RemoveElementAt_invariant d d1 idx r hinv hr
  · simp only [Option.pure_def, Option.some.injEq, Prod.mk.injEq] at h2
    rw [← h2.1]; exact hinv

/-- C18: the predicate `0 ≤ size ≤ capacity`, and when `capacity > 0` also
`0 ≤ first < capacity`, `0 ≤ last < capacity`, `last = (first + size) mod capacity`, holds of
every state a constructor returns, and every exported method that assigns to the receiver
(`EnsureCapacity`, `Add`, `Set`, `RemoveElementAt`, `TrimToSize`, `AddFirst`, `AddLast`,
`RemoveFirst`, `RemoveLast`, `Clear`, `Remove`) preserves it whenever it returns.  `Get`, the
peeks, the searches, `ToArray` and the capacity queries only read the receiver (the embedding
returns no new state for them), so they preserve it as well. -/
theorem invariant_preserved (d : ArrayDeque α) (hinv : Invariant d) (i c : Int) (v : α) :
    (∀ (capacity growthPolicy : Int) (growthFactor : ℚ) (growthChunk : Int)
      (compare : α → α → Bool) (d0 : ArrayDeque α),
      NewArrayDequeWithParams capacity growthPolicy growthFactor growthChunk compare = some d0 →
      Invariant d0) ∧
    (∀ (d' : ArrayDeque α) (n : Int), EnsureCapacity d c = some (d', n) → Invariant d') ∧
    (∀ d' : ArrayDeque α, Add d i v = some d' → Invariant d') ∧
    (∀ (d' : ArrayDeque α) (r : α × Option DequeError), Set d i v = some (d', r) →
      Invariant d') ∧
    (∀ (d' : ArrayDeque α) (r : α × Option DequeError), RemoveElementAt d i = some (d', r) →
      Invariant d') ∧
    (∀ d' : ArrayDeque α, TrimToSize d = some d' → Invariant d') ∧
    (∀ d' : ArrayDeque α, AddFirst d v = some d' → Invariant d') ∧
    (∀ d' : ArrayDeque α, AddLast d v = some d' → Invariant d') ∧
    (∀ (d' : ArrayDeque α) (r : α × Option DequeError), RemoveFirst d = some (d', r) →
      Invariant d') ∧
    (∀ (d' : ArrayDeque α) (r : α × Option DequeError), RemoveLast d = some (d', r) →
      Invariant d') ∧
    Invariant (Clear d) ∧
    (∀ (d' : ArrayDeque α) (b : Bool), Remove d v = some (d', b) → Invariant d') := by
  refine ⟨?_, fun d' n h => EnsureCapacity_invariant d d' c n hinv h,
    fun d' h => Add_invariant d d' i v hinv h,
    fun d' r h => Set_invariant d d' i v r hinv h,
    fun d' r h => RemoveElementAt_invariant d d' i r hinv h,
    fun d' h => TrimToSize_invariant d d' hinv h,
    fun d' h => AddFirst_invariant d d' v hinv h,
    fun d' h => AddLast_invariant d d' v hinv h,
    fun d' r h => RemoveFirst_invariant d d' r hinv h,
    fun d' r h => RemoveLast_invariant d d' r hinv h,
    Invariant.of_wellFormed _ (Clear_preserves d),
    fun d' b h => Remove_invariant d d' v b hinv h⟩
  intro capacity growthPolicy growthFactor growthChunk compare d0 hnew
  obtain ⟨hc, -, -, hlen, hs, hf, hl, -⟩ := NewArrayDequeWithParams_spec _ _ _ _ _ _ hnew
  exact Invariant.of_wellFormed d0 (wellFormed_of_fresh d0 (by omega) hs hf hl)

/-! ## Which run an interior insertion or removal shifts -/

theorem invariant_preserved_witness :
    (∀ (capacity growthPolicy : Int) (growthFactor : ℚ) (growthChunk : Int)
      (compare : Int → Int → Bool) (d0 : ArrayDeque Int),
      NewArrayDequeWithParams capacity growthPolicy growthFactor growthChunk compare = some d0 →
      Invariant d0) ∧
    (∀ (d' : ArrayDeque Int) (n : Int), EnsureCapacity wraparoundState 9 = some (d', n) →
      Invariant d') ∧
    (∀ d' : ArrayDeque Int, Add wraparoundState 2 7 = some d' → Invariant d') ∧
    (∀ (d' : ArrayDeque Int) (r : Int × Option DequeError),
      Set wraparoundState 2 7 = some (d', r) → Invariant d') ∧
    (∀ (d' : ArrayDeque Int) (r : Int × Option DequeError),
      RemoveElementAt wraparoundState 2 = some (d', r) → Invariant d') ∧
    (∀ d' : ArrayDeque Int, TrimToSize wraparoundState = some d' → Invariant d') ∧
    (∀ d' : ArrayDeque Int, AddFirst wraparoundState 7 = some d' → Invariant d') ∧
    (∀ d' : ArrayDeque Int, AddLast wraparoundState 7 = some d' → Invariant d') ∧
    (∀ (d' : ArrayDeque Int) (r : Int × Option DequeError),
      RemoveFirst wraparoundState = some (d', r) → Invariant d') ∧
    (∀ (d' : ArrayDeque Int) (r : Int × Option DequeError),
      RemoveLast wraparoundState = some (d', r) → Invariant d') ∧
    Invariant (Clear wraparoundState) ∧
    (∀ (d' : ArrayDeque Int) (b : Bool), Remove wraparoundState 7 = some (d', b) →
      Invariant d') :=
  invariant_preserved wraparoundState
    (Invariant.of_wellFormed wraparoundState wellFormed_wraparoundState) 2 9 7

/-! ## Relinearization by growth and by trimming -/

theorem TrimToSize_spec (d : ArrayDeque α) (hwf : WellFormed d)
    (hne : 0 < d.size ∨ d.first = 0) (hroom : d.size < d.len) :
    TrimToSize d = some { d with first := 0, last := 0, data := logical d } := by
  have hgt : d.len > d.size := by omega
  simp only [TrimToSize, hgt, if_true, ToArray_spec d hwf hne, Option.bind_eq_bind,
    Option.some_bind]
  rfl

/-- C20 (the claim as stated fails): `singletonState` has capacity 10 and size 1, and
`TrimToSize` leaves it with `first = 0` and `last = 0`, which is not its size 1. -/
theorem TrimToSize_last_counterexample :
    Size singletonState < Capacity singletonState ∧
      ∃ d' : ArrayDeque Int, TrimToSize singletonState = some d' ∧ d'.first = 0 ∧
        d'.last = 0 ∧ d'.size = 1 ∧ d'.last ≠ d'.size :=
  ⟨by decide, _, rfl, rfl, rfl, rfl, by decide⟩

/-- C20 (amended): on a well-formed deque that holds at least one element or has
`first = 0`, `EnsureCapacity(min)` with `min > capacity` returns a state with `first = 0` and
`last = size`, and `TrimToSize` with `capacity > size` returns a state with `first = 0`,
`last = 0` and capacity equal to `size`; in both the size is unchanged and the element at
logical index `k` is stored in physical slot `k` for every `k < size`. -/
theorem relinearized_from_zero (d : ArrayDeque α) (min : Int) (hwf : WellFormed d)
    (hne : 0 < d.size ∨ d.first = 0) :
    (Capacity d < min → ∃ (d' : ArrayDeque α) (n : Int),
      EnsureCapacity d min = some (d', n) ∧ d'.first = 0 ∧ d'.last = d.size ∧
      d'.size = d.size ∧
      ∀ k : Int, 0 ≤ k → k < d.size → index d'.data k = some (elemAt d k)) ∧
    (d.size < Capacity d → ∃ d' : ArrayDeque α,
      TrimToSize d = some d' ∧ d'.first = 0 ∧ d'.last = 0 ∧ Capacity d' = d.size ∧
      d'.size = d.size ∧
      ∀ k : Int, 0 ≤ k → k < d.size → index d'.data k = some (elemAt d k)) := by
  have hwf2 := (wellFormed_iff d).1 hwf
  constructor
  · intro hlt
    obtain ⟨d', he, -, hs', -, hc, -, -, -, -, -, -, hgrow⟩ :=
      EnsureCapacity_spec d min hwf (Or.inr hne)
    obtain ⟨hf, hl, -, hp⟩ := hgrow hlt
    refine ⟨d', d'.len, he, hf, hl, hs', fun k hk0 hk1 => ?_⟩
    have hlen : d'.len = d'.data.length := rfl
    have hcap : d.len < min := hlt
    rw [index_some d'.data k hk0 (by omega), hp k hk0, if_pos hk1]
  · intro hroom
    refine ⟨_, TrimToSize_spec d hwf hne hroom, rfl, rfl, ?_, rfl, fun k hk0 hk1 => ?_⟩
    · simp only [Capacity, ArrayDeque.len, logical_length]
      omega
    · have hl : (logical d).length = d.size.toNat := logical_length d
      have h1 : index (logical d) k = (logical d)[k.toNat]? := by
        have : 0 ≤ k ∧ k < ((logical d).length : Int) := ⟨hk0, by omega⟩
        simp only [index, this, and_self, if_true]
      show index (logical d) k = some (elemAt d k)
      rw [h1, logical_getElem_opt, if_pos (by omega)]
      congr 2; omega

theorem relinearized_from_zero_witness :
    (Capacity singletonState < 15 → ∃ (d' : ArrayDeque Int) (n : Int),
      EnsureCapacity singletonState 15 = some (d', n) ∧ d'.first = 0 ∧
      d'.last = singletonState.size ∧ d'.size = singletonState.size ∧
      ∀ k : Int, 0 ≤ k → k < singletonState.size →
        index d'.data k = some (elemAt singletonState k)) ∧
    (singletonState.size < Capacity singletonState → ∃ d' : ArrayDeque Int,
      TrimToSize singletonState = some d' ∧ d'.first = 0 ∧ d'.last = 0 ∧
      Capacity d' = singletonState.size ∧ d'.size = singletonState.size ∧
      ∀ k : Int, 0 ≤ k → k < singletonState.size →
        index d'.data k = some (elemAt singletonState k)) :=
  relinearized_from_zero singletonState 15 (by unfold WellFormed; decide) (Or.inl (by decide))

end ArrayDequeGo
